import Mathlib

/-!
Verification development for the `rrt` sampling-based motion planner
(2-D RRT / RRT* over rectangular spaces with axis-aligned walls).

Shallow embedding conventions:
* points are pairs of reals (`Pt`), mirroring the numpy 2-vectors;
* path costs live in `WithTop ℝ`, with `⊤` standing for `np.inf`;
* the planner's random sample is passed in explicitly (the repository
  injects it through `np.random`), so a planning run is a function of
  the sequence of samples;
* operations that raise in Python (failed assertions, `argmin` on an
  empty list, reparenting the root, reparenting under a descendant —
  which would corrupt the structure / loop forever) are modelled as
  `Option`-returning functions whose `none` marks the error branch;
* the `geometry` module (`find_intersection_point`, `lines_intersect`)
  is an external requirement of `setup.py` whose code is not in the
  repository; it is modelled from the specification (section 4.1), as
  marked on the definitions below;
* `pygame.Rect` (used by `helpers.ball_intersect`) is modelled over ℚ
  with its documented integer truncation.
-/

set_option maxHeartbeats 1000000

noncomputable section

abbrev Pt : Type := ℝ × ℝ

abbrev Cost : Type := WithTop ℝ

/-- Euclidean length of a 2-vector, `np.linalg.norm`. -/
def norm2 (v : Pt) : ℝ := Real.sqrt (v.1 ^ 2 + v.2 ^ 2)

/-- Translation of `helpers.point_in_box`: component-wise
`min ≤ point ≤ max` (both bounds inclusive). -/
def pointInBox (mn mx p : Pt) : Prop :=
  mn.1 ≤ p.1 ∧ mn.2 ≤ p.2 ∧ p.1 ≤ mx.1 ∧ p.2 ≤ mx.2

instance (mn mx p : Pt) : Decidable (pointInBox mn mx p) := by
  unfold pointInBox; infer_instance

/-- Cross product of two 2-vectors (z-component). -/
def cross2 (v w : Pt) : ℝ := v.1 * w.2 - v.2 * w.1

/-- Modelled from the spec: `geometry.find_intersection_point` is imported
by `space.py` from the external `geometry` package, whose source is not in
the repository.  Spec section 4.1: it returns "the unique intersection
point of segment (a1,a2) with segment (b1,b2) if it exists, else no
intersection (absent value, not an exception)".  Parallel or collinear
segments have no unique intersection point and yield `none`; endpoint
touching counts as intersecting (parameters are tested in the closed
interval `[0, 1]`). -/
def findIntersectionPoint (a1 a2 b1 b2 : Pt) : Option Pt :=
  let r := a2 - a1
  let s := b2 - b1
  let den := cross2 r s
  if den = 0 then none
  else
    let t := cross2 (b1 - a1) s / den
    let u := cross2 (b1 - a1) r / den
    if 0 ≤ t ∧ t ≤ 1 ∧ 0 ≤ u ∧ u ≤ 1 then some (a1 + t • r) else none

/-- Modelled from the spec: `geometry.lines_intersect` from the same
external `geometry` package.  Spec section 4.1: true iff the two segments
cross, treating touching as intersecting, "matching later nearest-point
extraction needs" — so it holds exactly when `findIntersectionPoint`
produces a point. -/
def linesIntersect (a1 a2 b1 b2 : Pt) : Prop :=
  (findIntersectionPoint a1 a2 b1 b2).isSome

instance (a1 a2 b1 b2 : Pt) : Decidable (linesIntersect a1 a2 b1 b2) := by
  unfold linesIntersect; infer_instance

/-- Degenerate segments intersect nothing: the direction vector is zero,
so the denominator in the modelled intersection test vanishes. -/
theorem linesIntersect_self_false (p b1 b2 : Pt) : ¬ linesIntersect p p b1 b2 := by
  simp [linesIntersect, findIntersectionPoint, cross2]

end

/-! ### pygame rectangles and `helpers.ball_intersect`

`helpers.ball_intersect` builds `pygame.Rect` values from float data.
`pygame.Rect` stores integer coordinates: float arguments are truncated
toward zero.  This part of the development is executable (over ℚ). -/

/-- Truncation toward zero, Python's `int(...)` applied by `pygame.Rect`
to float arguments. -/
def pyTrunc (q : ℚ) : ℤ := if 0 ≤ q then ⌊q⌋ else ⌈q⌉

/-- Integer-coordinate rectangle in pygame's convention: `x`/`y` is the
top-left corner and `w`/`h` the extents (y grows downward). -/
structure PgRect where
  x : ℤ
  y : ℤ
  w : ℤ
  h : ℤ
deriving DecidableEq

/-- Translation of `pygame.Rect(left, top, width, height)` on float
(here rational) arguments: each component is truncated. -/
def mkPgRect (left top width height : ℚ) : PgRect :=
  ⟨pyTrunc left, pyTrunc top, pyTrunc width, pyTrunc height⟩

/-- Translation of `pygame.Rect.colliderect`: strict overlap test on the
integer rectangles (touching edges do not collide). -/
def PgRect.colliderect (a b : PgRect) : Prop :=
  a.x < b.x + b.w ∧ a.y < b.y + b.h ∧ b.x < a.x + a.w ∧ b.y < a.y + a.h

instance (a b : PgRect) : Decidable (a.colliderect b) := by
  unfold PgRect.colliderect; infer_instance

/-- Translation of `pygame.Rect.contains`: `b` is completely inside `a`. -/
def PgRect.containsRect (a b : PgRect) : Prop :=
  a.x ≤ b.x ∧ a.y ≤ b.y ∧ b.x + b.w ≤ a.x + a.w ∧ b.y + b.h ≤ a.y + a.h ∧
    a.x < b.x + b.w ∧ a.y < b.y + b.h

instance (a b : PgRect) : Decidable (a.containsRect b) := by
  unfold PgRect.containsRect; infer_instance

/-- Rational point-in-box test (`helpers.point_in_box` as used with the
rational data of the ball test). -/
def pointInBoxQ (mn mx p : ℚ × ℚ) : Prop :=
  mn.1 ≤ p.1 ∧ mn.2 ≤ p.2 ∧ p.1 ≤ mx.1 ∧ p.2 ≤ mx.2

instance (mn mx p : ℚ × ℚ) : Decidable (pointInBoxQ mn mx p) := by
  unfold pointInBoxQ; infer_instance

/-- Squared Euclidean distance over ℚ (used to phrase the exact
`np.linalg.norm(pt - bcent) <= rad` comparisons of `ball_intersect`:
for nonnegative radius, `‖v‖ ≤ r ↔ ‖v‖² ≤ r²`). -/
def distSqQ (p q : ℚ × ℚ) : ℚ := (p.1 - q.1) ^ 2 + (p.2 - q.2) ^ 2

/-- Translation of `helpers.ball_intersect(bcent, rad, wall)`.  The
corner test `np.linalg.norm(pt - bcent) <= rad` is expressed with squared
distances (equivalent for `rad ≥ 0`; the guard `0 ≤ rad` keeps it exact
for negative radii, where the original comparison is false). -/
def ballIntersect (bcent : ℚ × ℚ) (rad : ℚ) (wall : (ℚ × ℚ) × (ℚ × ℚ)) : Prop :=
  let brect := mkPgRect (bcent.1 - rad) (bcent.2 - rad) (rad * 2) (rad * 2)
  let wl := wall.1.1
  let wu := wall.1.2
  let wr := wall.2.1
  let wb := wall.2.2
  let rect := mkPgRect wl wu (wr - wl) (wb - wu)
  rect.colliderect brect ∧
    (rect.containsRect brect ∨
      ((brect.y + brect.h > rect.y ∨ brect.y < rect.y + rect.h) ∧
        ((rect.x : ℚ) < bcent.1 ∧ bcent.1 < ((rect.x + rect.w : ℤ) : ℚ))) ∨
      ((brect.x + brect.w > rect.x ∨ brect.x < rect.x + rect.w) ∧
        ((rect.y : ℚ) < bcent.2 ∧ bcent.2 < ((rect.y + rect.h : ℤ) : ℚ))) ∨
      (0 ≤ rad ∧
        ((distSqQ ((rect.x : ℚ), (rect.y : ℚ)) bcent ≤ rad ^ 2) ∨
          (distSqQ (((rect.x + rect.w : ℤ) : ℚ), (rect.y : ℚ)) bcent ≤ rad ^ 2) ∨
          (distSqQ ((rect.x : ℚ), ((rect.y + rect.h : ℤ) : ℚ)) bcent ≤ rad ^ 2) ∨
          (distSqQ (((rect.x + rect.w : ℤ) : ℚ), ((rect.y + rect.h : ℤ) : ℚ)) bcent ≤ rad ^ 2))))

instance (b : ℚ × ℚ) (r : ℚ) (w : (ℚ × ℚ) × (ℚ × ℚ)) :
    Decidable (ballIntersect b r w) := by
  unfold ballIntersect; infer_instance

/-! ### The tree (`tree.py`: `Node`, `DirectedTree`)

`Node` objects own their `children` lists and carry a back-reference to
their parent; ownership is rooted at the tree head, so the embedding
represents the node structure as a rose tree and identifies the Python
object references by insertion index (`nid`).  The tree's `_nodes` list
(insertion order) is kept as `order`.  Python error branches
(`assert parent in self._nodes`, reparenting the root — whose `_parent`
is `None` —, reparenting a node under its own descendant — which makes
`recost` diverge —, `np.argmin` of an empty list) are the `none` results
of the corresponding operations. -/

noncomputable section

/-- State of one `tree.Node`: `nid` identifies the Python object (its
insertion index), `addCost` is `_newcost`, `cost` is `_cost`, `goal` is
`_goal`. -/
structure NodeData where
  nid : ℕ
  pt : Pt
  addCost : Cost
  cost : Cost
  goal : Bool

/-- Rose tree of nodes: each node owns its `_children` list. -/
inductive RNode : Type where
  | node : NodeData → List RNode → RNode

/-- Data stored at the root of a subtree. -/
def RNode.dat : RNode → NodeData
  | .node d _ => d

/-- Children of the root of a subtree. -/
def RNode.kids : RNode → List RNode
  | .node _ cs => cs

mutual
/-- Number of nodes in a subtree. -/
def RNode.size : RNode → ℕ
  | .node _ cs => 1 + sizeL cs
/-- Number of nodes in a forest. -/
def sizeL : List RNode → ℕ
  | [] => 0
  | c :: cs => RNode.size c + sizeL cs
end

mutual
/-- Preorder list of all node data in a subtree. -/
def RNode.allData : RNode → List NodeData
  | .node d cs => d :: allDataL cs
/-- Preorder list of all node data in a forest. -/
def allDataL : List RNode → List NodeData
  | [] => []
  | c :: cs => RNode.allData c ++ allDataL cs
end

/-- Identifiers occurring in a subtree, in preorder. -/
def RNode.ids (t : RNode) : List ℕ := t.allData.map NodeData.nid

mutual
/-- First (preorder) node with identifier `i`, as in a scan of the
Python `_nodes` structure by object identity. -/
def RNode.findD : RNode → ℕ → Option NodeData
  | .node d cs, i => if d.nid = i then some d else findDL cs i
/-- First node with identifier `i` in a forest. -/
def findDL : List RNode → ℕ → Option NodeData
  | [], _ => none
  | c :: cs, i =>
    match RNode.findD c i with
    | some d => some d
    | none => findDL cs i
end

mutual
/-- Append `c` to the `_children` list of the first node with
identifier `i`; the boolean reports whether such a node was found. -/
def RNode.insN : RNode → ℕ → RNode → RNode × Bool
  | .node d cs, i, c =>
    if d.nid = i then (.node d (cs ++ [c]), true)
    else (.node d (insL cs i c).1, (insL cs i c).2)
/-- Insertion into a forest: tries each tree in order. -/
def insL : List RNode → ℕ → RNode → List RNode × Bool
  | [], _, _ => ([], false)
  | x :: xs, i, c =>
    if (RNode.insN x i c).2 then ((RNode.insN x i c).1 :: xs, true)
    else (x :: (insL xs i c).1, (insL xs i c).2)
end

mutual
/-- Remove the first (DFS) child node with identifier `i` from its
parent's `_children` list and return it (`Node.reparent`'s
`self._parent._children.remove(self)`).  The root of the subtree is not
a child, so it is never removed. -/
def RNode.detachN : RNode → ℕ → RNode × Option RNode
  | .node d cs, i => (.node d (detachL cs i).1, (detachL cs i).2)
/-- Removal of the first tree rooted at identifier `i` from a forest. -/
def detachL : List RNode → ℕ → List RNode × Option RNode
  | [], _ => ([], none)
  | c :: cs, i =>
    if c.dat.nid = i then (cs, some c)
    else
      match (RNode.detachN c i).2 with
      | some s => ((RNode.detachN c i).1 :: cs, some s)
      | none => (c :: (detachL cs i).1, (detachL cs i).2)
end

mutual
/-- Translation of `Node.recost` applied after attaching a subtree under
a parent whose `_cost` is `pc`: every node's `_cost` becomes its
parent's recomputed `_cost` plus its own `_newcost`, top-down. -/
def RNode.recostSub (pc : Cost) : RNode → RNode
  | .node d cs =>
    .node { d with cost := pc + d.addCost } (recostL (pc + d.addCost) cs)
/-- Recosting of a forest of children below a recomputed cost. -/
def recostL (pc : Cost) : List RNode → List RNode
  | [] => []
  | c :: cs => RNode.recostSub pc c :: recostL pc cs
end

mutual
/-- Apply `f` to the data of the first node with identifier `i`
(used for `Node.mark_goal`). -/
def RNode.mapD : RNode → ℕ → (NodeData → NodeData) → RNode × Bool
  | .node d cs, i, f =>
    if d.nid = i then (.node (f d) cs, true)
    else (.node d (mapDL cs i f).1, (mapDL cs i f).2)
/-- Apply `f` to the first node with identifier `i` in a forest. -/
def mapDL : List RNode → ℕ → (NodeData → NodeData) → List RNode × Bool
  | [], _, _ => ([], false)
  | x :: xs, i, f =>
    if (RNode.mapD x i f).2 then ((RNode.mapD x i f).1 :: xs, true)
    else (x :: (mapDL xs i f).1, (mapDL xs i f).2)
end

mutual
/-- Identifier path from the root of the subtree down to the first node
with identifier `i` (the reversed parent chain built by
`DirectedTree.path_down`). -/
def RNode.pathTo : RNode → ℕ → Option (List ℕ)
  | .node d cs, i =>
    if d.nid = i then some [d.nid]
    else (pathToL cs i).map (fun p => d.nid :: p)
/-- Path search in a forest. -/
def pathToL : List RNode → ℕ → Option (List ℕ)
  | [], _ => none
  | c :: cs, i =>
    match RNode.pathTo c i with
    | some p => some p
    | none => pathToL cs i
end

end

/-! ### Induction principle for the rose tree -/

theorem le_sizeL_of_mem {c : RNode} : ∀ {cs : List RNode}, c ∈ cs → c.size ≤ sizeL cs := by
  intro cs
  induction cs with
  | nil => intro h; cases h
  | cons x xs ih =>
    intro h
    rcases List.mem_cons.mp h with rfl | hm
    · simp only [sizeL]; omega
    · have := ih hm; simp only [sizeL]; omega

theorem RNode.inductionOn {P : RNode → Prop}
    (h : ∀ d cs, (∀ c ∈ cs, P c) → P (.node d cs)) : ∀ t : RNode, P t := by
  have key : ∀ n (t : RNode), t.size ≤ n → P t := by
    intro n
    induction n with
    | zero =>
      intro t ht
      cases t with
      | node d cs => simp [RNode.size] at ht
    | succ n ih =>
      intro t ht
      cases t with
      | node d cs =>
        refine h d cs ?_
        intro c hc
        refine ih c ?_
        have h1 : c.size ≤ sizeL cs := le_sizeL_of_mem hc
        have h2 : RNode.size (.node d cs) = 1 + sizeL cs := rfl
        omega
  exact fun t => key t.size t le_rfl

/-! ### `DirectedTree` -/

noncomputable section

/-- Translation of `tree.DirectedTree`: the head node together with the
`_nodes` bookkeeping list (insertion-ordered node identifiers; the next
fresh identifier is its length). -/
structure DirectedTree where
  head : RNode
  order : List ℕ

/-- Translation of `DirectedTree.__init__(init_pt)`: the head is
`Node(init_pt, None)` — default `add_cost = 1` is stored in `_newcost`,
but the parentless cost is `0` — and `_nodes = [headnode]`. -/
def mkTree (p0 : Pt) : DirectedTree :=
  ⟨.node ⟨0, p0, (1 : ℝ), 0, false⟩ [], [0]⟩

/-- Number of nodes, `DirectedTree.n_vertices`. -/
def DirectedTree.nVertices (t : DirectedTree) : ℕ := t.order.length

/-- Resolve a node reference by identifier. -/
def DirectedTree.lookup (t : DirectedTree) (i : ℕ) : Option NodeData :=
  t.head.findD i

/-- Stored `_cost` of the node with identifier `i` (`⊤` when absent;
never used on absent identifiers). -/
def DirectedTree.costOf (t : DirectedTree) (i : ℕ) : Cost :=
  (t.lookup i).elim ⊤ NodeData.cost

/-- Translation of `DirectedTree.add_node(parent, childpt, add_cost)`:
requires the parent to be in the tree (`assert`, modelled as `none`),
builds `Node(childpt, parent, add_cost)` — whose cost is
`parent.cost + add_cost` —, appends it to the parent's `_children` and
to `_nodes`, and returns it (here: its fresh identifier). -/
def DirectedTree.addNode (t : DirectedTree) (parent : ℕ) (childpt : Pt) (addCost : Cost) :
    Option (DirectedTree × ℕ) :=
  match t.lookup parent with
  | none => none
  | some pd =>
    some (⟨(t.head.insN parent
        (.node ⟨t.order.length, childpt, addCost, pd.cost + addCost, false⟩ [])).1,
      t.order ++ [t.order.length]⟩, t.order.length)

/-- Translation of `Node.reparent(newparent, newcost)` invoked through
the tree: detach the node from its parent's `_children` (fails — `none`
— for the root, whose `_parent` is `None`, or for an absent node), set
`_newcost`, append under the new parent and `recost` the whole subtree.
If the new parent is inside the moved subtree the Python code would
corrupt the structure and `recost` would not terminate: `none`. -/
def DirectedTree.reparent (t : DirectedTree) (i newParent : ℕ) (newCost : Cost) :
    Option DirectedTree :=
  match (t.head.detachN i).2 with
  | none => none
  | some sub =>
    match ((t.head.detachN i).1).findD newParent with
    | none => none
    | some pd =>
      some ⟨(((t.head.detachN i).1).insN newParent
        ((RNode.node { sub.dat with addCost := newCost } sub.kids).recostSub pd.cost)).1,
        t.order⟩

/-- Translation of `Node.mark_goal()` on the node with identifier `i`. -/
def DirectedTree.markGoal (t : DirectedTree) (i : ℕ) : DirectedTree :=
  ⟨(t.head.mapD i (fun d => { d with goal := true })).1, t.order⟩

/-- Translation of `DirectedTree.free_nodes`: the `_nodes` list filtered
to nodes whose `is_goal` is `False`, in insertion order. -/
def DirectedTree.freeIds (t : DirectedTree) : List ℕ :=
  t.order.filter fun i =>
    match t.lookup i with
    | some d => !d.goal
    | none => false

/-- Translation of `DirectedTree.goal_nodes`. -/
def DirectedTree.goalIds (t : DirectedTree) : List ℕ :=
  t.order.filter fun i =>
    match t.lookup i with
    | some d => d.goal
    | none => false

/-- Distance from the node with identifier `i` to `q`
(`Node.distance`). -/
def DirectedTree.distTo (t : DirectedTree) (q : Pt) (i : ℕ) : ℝ :=
  match t.lookup i with
  | some d => norm2 (d.pt - q)
  | none => 0

/-- Translation of `DirectedTree.nearest(newpt)`: `np.argmin` of the
distances of the free nodes (first minimum wins), `none` on an empty
free list (where `np.argmin` raises). -/
def DirectedTree.nearest (t : DirectedTree) (q : Pt) : Option ℕ :=
  match t.freeIds with
  | [] => none
  | f :: rest =>
    some (rest.foldl (fun best i => if t.distTo q i < t.distTo q best then i else best) f)

/-- Translation of `DirectedTree.near(newpt, radius)`: free nodes whose
distance to `newpt` is at most `radius`, in insertion order. -/
def DirectedTree.near (t : DirectedTree) (q : Pt) (radius : ℝ) : List ℕ :=
  t.freeIds.filter fun i => t.distTo q i ≤ radius

/-- Translation of `DirectedTree.path_down(end_node)`: the chain of
parents from the root down to the node (already reversed into
root-to-node order by the recursive search). -/
def DirectedTree.pathDown (t : DirectedTree) (i : ℕ) : Option (List ℕ) :=
  t.head.pathTo i

/-- Cost component of `RRT.get_shortest_path` (`rrt_base.py`): the
minimum stored cost among goal nodes, `np.inf` (`⊤`) when no goal node
exists. -/
def DirectedTree.shortestCost (t : DirectedTree) : Cost :=
  (t.goalIds.map t.costOf).foldr min ⊤

end

/-! ### Structural lemmas about the rose-tree operations -/

theorem allDataL_append : ∀ xs ys : List RNode,
    allDataL (xs ++ ys) = allDataL xs ++ allDataL ys := by
  intro xs ys
  induction xs with
  | nil => simp [allDataL]
  | cons x xs ih => simp [allDataL, ih]

theorem allData_node (d : NodeData) (cs : List RNode) :
    RNode.allData (.node d cs) = d :: allDataL cs := rfl

theorem dat_mem_allData : ∀ t : RNode, t.dat ∈ t.allData := by
  intro t
  cases t with
  | node d cs => simp [RNode.dat, allData_node]

theorem mem_allDataL {d : NodeData} : ∀ {cs : List RNode},
    d ∈ allDataL cs ↔ ∃ c ∈ cs, d ∈ c.allData := by
  intro cs
  induction cs with
  | nil => simp [allDataL]
  | cons x xs ih => simp [allDataL, ih]

theorem ids_node (d : NodeData) (cs : List RNode) :
    RNode.ids (.node d cs) = d.nid :: (allDataL cs).map NodeData.nid := by
  simp [RNode.ids, allData_node]

theorem mem_ids {t : RNode} {i : ℕ} :
    i ∈ t.ids ↔ ∃ d ∈ t.allData, d.nid = i := by
  simp [RNode.ids, List.mem_map]

theorem findD_mem : ∀ (t : RNode) {i : ℕ} {d : NodeData},
    t.findD i = some d → d ∈ t.allData ∧ d.nid = i := by
  intro t
  induction t using RNode.inductionOn with
  | _ d cs ih =>
    intro i d0 h
    rw [RNode.findD] at h
    by_cases hd : d.nid = i
    · rw [if_pos hd] at h
      cases h
      exact ⟨dat_mem_allData (.node d cs), hd⟩
    · rw [if_neg hd] at h
      -- search in the forest
      have : ∃ c ∈ cs, c.findD i = some d0 := by
        clear hd
        induction cs with
        | nil => simp [findDL] at h
        | cons x xs ihx =>
          rw [findDL] at h
          rcases hx : x.findD i with _ | d1
          · rw [hx] at h
            rcases ihx (fun c hc => ih c (List.mem_cons_of_mem _ hc)) h with ⟨c, hc, hcd⟩
            exact ⟨c, List.mem_cons_of_mem _ hc, hcd⟩
          · rw [hx] at h
            cases h
            exact ⟨x, List.mem_cons_self _ _, hx⟩
      rcases this with ⟨c, hc, hcd⟩
      rcases ih c hc hcd with ⟨hmem, hnid⟩
      exact ⟨by simp [allData_node, mem_allDataL]; right; exact ⟨c, hc, hmem⟩, hnid⟩

theorem findDL_isSome : ∀ {cs : List RNode} {i : ℕ},
    (findDL cs i).isSome ↔ ∃ c ∈ cs, (c.findD i).isSome := by
  intro cs i
  induction cs with
  | nil => simp [findDL]
  | cons x xs ih =>
    rw [findDL]
    rcases hx : x.findD i with _ | d
    · simp [hx, ih]
    · simp [hx]

theorem findD_isSome : ∀ (t : RNode) (i : ℕ), (t.findD i).isSome ↔ i ∈ t.ids := by
  intro t
  induction t using RNode.inductionOn with
  | _ d cs ih =>
    intro i
    rw [RNode.findD]
    by_cases hd : d.nid = i
    · simp [if_pos hd, ids_node, hd]
    · rw [if_neg hd]
      rw [findDL_isSome]
      simp only [ids_node, List.mem_cons]
      constructor
      · rintro ⟨c, hc, hcs⟩
        right
        have := (ih c hc i).mp hcs
        rcases mem_ids.mp this with ⟨d1, hd1, hd1i⟩
        exact List.mem_map.mpr ⟨d1, mem_allDataL.mpr ⟨c, hc, hd1⟩, hd1i⟩
      · rintro (h | h)
        · exact absurd h.symm hd
        · rcases List.mem_map.mp h with ⟨d1, hd1, hd1i⟩
          rcases mem_allDataL.mp hd1 with ⟨c, hc, hd1c⟩
          exact ⟨c, hc, (ih c hc i).mpr (mem_ids.mpr ⟨d1, hd1c, hd1i⟩)⟩

theorem findD_eq_of_mem_nodup : ∀ (t : RNode) {i : ℕ} {d : NodeData},
    t.ids.Nodup → d ∈ t.allData → d.nid = i → t.findD i = some d := by
  intro t
  induction t using RNode.inductionOn with
  | _ d0 cs ih =>
    intro i d hnod hmem hnid
    rw [RNode.findD]
    rw [allData_node, List.mem_cons] at hmem
    rw [ids_node] at hnod
    rcases hmem with rfl | hmem
    · rw [if_pos hnid]
    · have hdne : d0.nid ≠ i := by
        intro he
        have : i ∈ (allDataL cs).map NodeData.nid :=
          List.mem_map.mpr ⟨d, hmem, hnid⟩
        exact (List.nodup_cons.mp hnod).1 (he ▸ this)
      rw [if_neg hdne]
      rcases mem_allDataL.mp hmem with ⟨c, hc, hdc⟩
      -- the forest scan finds it in the unique subtree containing i
      have hnodL : ((allDataL cs).map NodeData.nid).Nodup := (List.nodup_cons.mp hnod).2
      clear hdne hnod hmem
      induction cs with
      | nil => cases hc
      | cons x xs ihx =>
        rw [findDL]
        rw [allDataL, List.map_append] at hnodL
        rcases List.mem_cons.mp hc with hcx | hc2
        · have hfind : x.findD i = some d := by
            refine ih x (List.mem_cons_self _ _) ?_ (hcx ▸ hdc) hnid
            show ((x.allData).map NodeData.nid).Nodup
            exact List.Nodup.of_append_left hnodL
          rw [hfind]
        · have hxnone : x.findD i = none := by
            rcases hfx : x.findD i with _ | d2
            · rfl
            · exfalso
              rcases findD_mem x hfx with ⟨hd2, hd2i⟩
              have h1 : i ∈ (x.allData).map NodeData.nid := List.mem_map.mpr ⟨d2, hd2, hd2i⟩
              have h2 : i ∈ (allDataL xs).map NodeData.nid :=
                List.mem_map.mpr ⟨d, mem_allDataL.mpr ⟨c, hc2, hdc⟩, hnid⟩
              exact (List.disjoint_of_nodup_append hnodL) h1 h2
          rw [hxnone]
          exact ihx (fun c hcm => ih c (List.mem_cons_of_mem _ hcm)) hc2
            (List.Nodup.of_append_right hnodL)

/-! ### The cost invariant

`CostOK t` states that inside the subtree `t` every child's stored
`_cost` equals its parent's stored `_cost` plus the child's `_newcost`
(spec: `node.cost == node.parent.cost + node.additionalCost`). -/

inductive CostOK : RNode → Prop where
  | node : ∀ (d : NodeData) (cs : List RNode),
      (∀ c ∈ cs, c.dat.cost = d.cost + c.dat.addCost) →
      (∀ c ∈ cs, CostOK c) → CostOK (.node d cs)

theorem costOk_iff {d : NodeData} {cs : List RNode} :
    CostOK (.node d cs) ↔
      (∀ c ∈ cs, c.dat.cost = d.cost + c.dat.addCost) ∧ (∀ c ∈ cs, CostOK c) := by
  constructor
  · rintro ⟨_, _, h1, h2⟩
    exact ⟨h1, h2⟩
  · rintro ⟨h1, h2⟩
    exact CostOK.node d cs h1 h2

/-- All data except the stored cost; `recostSub` is the identity on this
projection. -/
def stripC (d : NodeData) : ℕ × Pt × Cost × Bool := (d.nid, d.pt, d.addCost, d.goal)

theorem stripC_nid {a b : NodeData} (h : stripC a = stripC b) : a.nid = b.nid := by
  simpa [stripC] using congrArg (fun x => x.1) h

/-! ### Lemmas about `insN` (insertion used by `add_node`) -/

theorem insN_dat (t : RNode) (i : ℕ) (c : RNode) : (t.insN i c).1.dat = t.dat := by
  cases t with
  | node d cs =>
    rw [RNode.insN]
    by_cases hd : d.nid = i
    · rw [if_pos hd]
      rfl
    · rw [if_neg hd]
      rfl

theorem insN_false : ∀ (t : RNode) (i : ℕ) (c : RNode),
    (t.insN i c).2 = false → (t.insN i c).1 = t := by
  intro t
  induction t using RNode.inductionOn with
  | _ d cs ih =>
    intro i c hfl
    rw [RNode.insN] at hfl ⊢
    by_cases hd : d.nid = i
    · rw [if_pos hd] at hfl
      simp at hfl
    · rw [if_neg hd] at hfl ⊢
      have hfl2 : (insL cs i c).2 = false := hfl
      have hL : ∀ (xs : List RNode), (∀ x ∈ xs, x ∈ cs) → (insL xs i c).2 = false →
          (insL xs i c).1 = xs := by
        intro xs
        induction xs with
        | nil => intro _ _; rfl
        | cons x txs ihx =>
          intro hinc hf
          rw [insL] at hf ⊢
          by_cases hx : (x.insN i c).2 = true
          · rw [if_pos hx] at hf
            simp at hf
          · rw [if_neg hx] at hf ⊢
            have hf2 : (insL txs i c).2 = false := hf
            rw [ihx (fun y hy => hinc y (List.mem_cons_of_mem _ hy)) hf2]
      rw [hL cs (fun x hx => hx) hfl2]

theorem insN_isSome : ∀ (t : RNode) (i : ℕ) (c : RNode),
    ((t.insN i c).2 = true) ↔ (t.findD i).isSome := by
  intro t
  induction t using RNode.inductionOn with
  | _ d cs ih =>
    intro i c
    rw [RNode.insN, RNode.findD]
    by_cases hd : d.nid = i
    · simp [if_pos hd]
    · rw [if_neg hd, if_neg hd]
      show ((insL cs i c).2 = true) ↔ (findDL cs i).isSome
      induction cs with
      | nil => simp [insL, findDL]
      | cons x xs ihx =>
        rw [insL, findDL]
        by_cases hx : (x.insN i c).2 = true
        · have hsome : (x.findD i).isSome := (ih x (List.mem_cons_self _ _) i c).mp hx
          rcases h2 : x.findD i with _ | d2
          · rw [h2] at hsome; cases hsome
          · simp [if_pos hx]
        · have hnone : x.findD i = none := by
            rcases h2 : x.findD i with _ | d2
            · rfl
            · exact absurd ((ih x (List.mem_cons_self _ _) i c).mpr (h2 ▸ rfl)) hx
          rw [if_neg hx, hnone]
          exact ihx (fun c2 hc2 => ih c2 (List.mem_cons_of_mem _ hc2))

theorem insN_perm : ∀ (t : RNode) (i : ℕ) (c : RNode),
    (t.insN i c).2 = true →
    ((t.insN i c).1.allData).Perm (t.allData ++ c.allData) := by
  intro t
  induction t using RNode.inductionOn with
  | _ d cs ih =>
    intro i c hfl
    rw [RNode.insN] at hfl ⊢
    by_cases hd : d.nid = i
    · rw [if_pos hd]
      simp only [allData_node, allDataL_append, allDataL, List.append_nil, List.cons_append]
      exact List.Perm.cons _ (List.Perm.refl _)
    · rw [if_neg hd] at hfl ⊢
      have hfl2 : (insL cs i c).2 = true := hfl
      show ((RNode.node d (insL cs i c).1).allData).Perm _
      simp only [allData_node, List.cons_append]
      refine List.Perm.cons _ ?_
      have hL : ∀ (xs : List RNode), (∀ x ∈ xs, x ∈ cs) → (insL xs i c).2 = true →
          (allDataL (insL xs i c).1).Perm (allDataL xs ++ c.allData) := by
        intro xs
        induction xs with
        | nil => intro _ hf; simp [insL] at hf
        | cons x txs ihx =>
          intro hinc hf
          rw [insL] at hf ⊢
          by_cases hx : (x.insN i c).2 = true
          · rw [if_pos hx]
            show (allDataL ((x.insN i c).1 :: txs)).Perm _
            rw [allDataL, allDataL, List.append_assoc]
            refine List.Perm.trans
              (List.Perm.append_right _ (ih x (hinc x (List.mem_cons_self _ _)) i c hx)) ?_
            rw [List.append_assoc]
            exact List.Perm.append_left _ List.perm_append_comm
          · rw [if_neg hx] at hf ⊢
            have hf2 : (insL txs i c).2 = true := hf
            show (allDataL (x :: (insL txs i c).1)).Perm _
            rw [allDataL, allDataL, List.append_assoc]
            exact List.Perm.append_left _
              (ihx (fun y hy => hinc y (List.mem_cons_of_mem _ hy)) hf2)
      exact hL cs (fun x hx => hx) hfl2

theorem insN_costOk : ∀ (t : RNode) {i : ℕ} (c : RNode) {pd : NodeData},
    CostOK t → t.findD i = some pd →
    c.dat.cost = pd.cost + c.dat.addCost → CostOK c →
    CostOK (t.insN i c).1 := by
  intro t
  induction t using RNode.inductionOn with
  | _ d cs ih =>
    intro i c pd hok hfind hc hcok
    rcases costOk_iff.mp hok with ⟨hcost, hsub⟩
    rw [RNode.insN]
    rw [RNode.findD] at hfind
    by_cases hd : d.nid = i
    · rw [if_pos hd] at hfind ⊢
      cases hfind
      refine costOk_iff.mpr ⟨?_, ?_⟩
      · intro c2 hc2
        rcases List.mem_append.mp hc2 with h | h
        · exact hcost c2 h
        · rcases List.mem_singleton.mp h with rfl
          exact hc
      · intro c2 hc2
        rcases List.mem_append.mp hc2 with h | h
        · exact hsub c2 h
        · rcases List.mem_singleton.mp h with rfl
          exact hcok
    · rw [if_neg hd] at hfind ⊢
      have hfind2 : findDL cs i = some pd := hfind
      have key : ∀ (xs : List RNode), (∀ x ∈ xs, x ∈ cs) →
          (∀ x ∈ xs, x.dat.cost = d.cost + x.dat.addCost) →
          (∀ x ∈ xs, CostOK x) →
          findDL xs i = some pd →
          (∀ x ∈ (insL xs i c).1, x.dat.cost = d.cost + x.dat.addCost) ∧
            (∀ x ∈ (insL xs i c).1, CostOK x) := by
        intro xs
        induction xs with
        | nil => intro _ _ _ hf; simp [findDL] at hf
        | cons x txs ihx =>
          intro hinc hcosts hoks hf
          rw [findDL] at hf
          rw [insL]
          by_cases hx : (x.insN i c).2 = true
          · have hsome : (x.findD i).isSome := (insN_isSome x i c).mp hx
            rcases h2 : x.findD i with _ | d2
            · rw [h2] at hsome; cases hsome
            rw [h2] at hf
            cases hf
            rw [if_pos hx]
            constructor
            · intro y hy
              rcases List.mem_cons.mp hy with rfl | hy2
              · rw [insN_dat]
                exact hcosts x (List.mem_cons_self _ _)
              · exact hcosts y (List.mem_cons_of_mem _ hy2)
            · intro y hy
              rcases List.mem_cons.mp hy with rfl | hy2
              · exact ih x (hinc x (List.mem_cons_self _ _)) c
                  (hoks x (List.mem_cons_self _ _)) h2 hc hcok
              · exact hoks y (List.mem_cons_of_mem _ hy2)
          · have hnone : x.findD i = none := by
              rcases h2 : x.findD i with _ | d2
              · rfl
              · exact absurd ((insN_isSome x i c).mpr (h2 ▸ rfl)) hx
            rw [hnone] at hf
            rw [if_neg hx]
            have hrec := ihx (fun y hy => hinc y (List.mem_cons_of_mem _ hy))
              (fun y hy => hcosts y (List.mem_cons_of_mem _ hy))
              (fun y hy => hoks y (List.mem_cons_of_mem _ hy)) hf
            constructor
            · intro y hy
              rcases List.mem_cons.mp hy with rfl | hy2
              · exact hcosts y (List.mem_cons_self _ _)
              · exact hrec.1 y hy2
            · intro y hy
              rcases List.mem_cons.mp hy with rfl | hy2
              · exact hoks y (List.mem_cons_self _ _)
              · exact hrec.2 y hy2
      have hres := key cs (fun x hx => hx) hcost hsub hfind2
      exact costOk_iff.mpr ⟨hres.1, hres.2⟩

/-! ### Lemmas about `detachN` (the removal half of `reparent`) -/

theorem detachN_dat (t : RNode) (i : ℕ) : (t.detachN i).1.dat = t.dat := by
  cases t with
  | node d cs => rfl

theorem mem_idsL {i : ℕ} {cs : List RNode} :
    i ∈ (allDataL cs).map NodeData.nid ↔ ∃ c ∈ cs, i ∈ c.ids := by
  constructor
  · intro h
    rcases List.mem_map.mp h with ⟨d, hd, rfl⟩
    rcases mem_allDataL.mp hd with ⟨c, hc, hdc⟩
    exact ⟨c, hc, mem_ids.mpr ⟨d, hdc, rfl⟩⟩
  · rintro ⟨c, hc, hic⟩
    rcases mem_ids.mp hic with ⟨d, hd, rfl⟩
    exact List.mem_map.mpr ⟨d, mem_allDataL.mpr ⟨c, hc, hd⟩, rfl⟩

theorem detachL_none : ∀ (cs : List RNode) (i : ℕ),
    (detachL cs i).2 = none → (detachL cs i).1 = cs ∧ ¬ ∃ c ∈ cs, i ∈ c.ids := by
  have main : ∀ (t : RNode) (i : ℕ),
      ((t.detachN i).2 = none → (t.detachN i).1 = t ∧ ¬ ∃ c ∈ t.kids, i ∈ c.ids) := by
    intro t
    induction t using RNode.inductionOn with
    | _ d cs ih =>
      intro i hnone
      have hnone2 : (detachL cs i).2 = none := hnone
      have hL : ∀ (xs : List RNode), (∀ x ∈ xs, x ∈ cs) → (detachL xs i).2 = none →
          (detachL xs i).1 = xs ∧ ¬ ∃ c ∈ xs, i ∈ c.ids := by
        intro xs
        induction xs with
        | nil => intro _ _; simp [detachL]
        | cons x txs ihx =>
          intro hinc hf
          rw [detachL] at hf
          by_cases hxi : x.dat.nid = i
          · rw [if_pos hxi] at hf
            cases hf
          · rw [if_neg hxi] at hf
            rcases h2 : (x.detachN i).2 with _ | s
            · simp only [h2] at hf
              have hf2 : (detachL txs i).2 = none := hf
              have hx := ih x (hinc x (List.mem_cons_self _ _)) i h2
              have hrec := ihx (fun y hy => hinc y (List.mem_cons_of_mem _ hy)) hf2
              constructor
              · rw [detachL, if_neg hxi]
                simp only [h2]
                rw [hrec.1]
              · rintro ⟨c, hc, hic⟩
                rcases List.mem_cons.mp hc with rfl | hc2
                · -- i is in x: either at its root or in its kids
                  cases c with
                  | node dx csx =>
                    rw [ids_node] at hic
                    rcases List.mem_cons.mp hic with hroot | htail
                    · exact hxi (by simpa [RNode.dat] using hroot.symm)
                    · exact hx.2 (mem_idsL.mp htail)
                · exact hrec.2 ⟨c, hc2, hic⟩
            · simp only [h2] at hf
              cases hf
      have := hL cs (fun x hx => hx) hnone2
      constructor
      · show RNode.node d (detachL cs i).1 = RNode.node d cs
        rw [this.1]
      · exact this.2
  intro cs i hnone
  -- package the forest statement through a dummy node
  have := main (.node ⟨0, (0, 0), 0, 0, false⟩ cs) i hnone
  constructor
  · have h1 := congrArg RNode.kids this.1
    simpa [RNode.kids] using h1
  · exact this.2

theorem detachN_none {t : RNode} {i : ℕ} (h : (t.detachN i).2 = none) :
    (t.detachN i).1 = t ∧ ¬ ∃ c ∈ t.kids, i ∈ c.ids := by
  cases t with
  | node d cs =>
    have h2 : (detachL cs i).2 = none := h
    have := detachL_none cs i h2
    constructor
    · show RNode.node d (detachL cs i).1 = RNode.node d cs
      rw [this.1]
    · exact this.2

theorem detachL_some : ∀ (cs : List RNode) (i : ℕ) (s : RNode),
    (detachL cs i).2 = some s →
    (allDataL cs).Perm (allDataL (detachL cs i).1 ++ s.allData) ∧ s.dat.nid = i := by
  have main : ∀ (t : RNode), ∀ (i : ℕ) (s : RNode),
      (t.detachN i).2 = some s →
      (t.allData).Perm ((t.detachN i).1.allData ++ s.allData) ∧ s.dat.nid = i := by
    intro t
    induction t using RNode.inductionOn with
    | _ d cs ih =>
      intro i s hsome
      have hsome2 : (detachL cs i).2 = some s := hsome
      have hL : ∀ (xs : List RNode), (∀ x ∈ xs, x ∈ cs) → (detachL xs i).2 = some s →
          (allDataL xs).Perm (allDataL (detachL xs i).1 ++ s.allData) ∧ s.dat.nid = i := by
        intro xs
        induction xs with
        | nil => intro _ hf; simp [detachL] at hf
        | cons x txs ihx =>
          intro hinc hf
          rw [detachL] at hf ⊢
          by_cases hxi : x.dat.nid = i
          · rw [if_pos hxi] at hf ⊢
            cases hf
            exact ⟨by rw [allDataL]; exact List.perm_append_comm, hxi⟩
          · rw [if_neg hxi] at hf ⊢
            rcases h2 : (x.detachN i).2 with _ | s2
            · simp only [h2] at hf ⊢
              have hf2 : (detachL txs i).2 = some s := hf
              have hrec := ihx (fun y hy => hinc y (List.mem_cons_of_mem _ hy)) hf2
              refine ⟨?_, hrec.2⟩
              rw [allDataL, allDataL, List.append_assoc]
              exact List.Perm.append_left _ hrec.1
            · simp only [h2] at hf ⊢
              cases hf
              have hx := ih x (hinc x (List.mem_cons_self _ _)) i s h2
              refine ⟨?_, hx.2⟩
              rw [allDataL, allDataL]
              refine List.Perm.trans (List.Perm.append_right _ hx.1) ?_
              rw [List.append_assoc, List.append_assoc]
              exact List.Perm.append_left _ List.perm_append_comm
      have := hL cs (fun x hx => hx) hsome2
      refine ⟨?_, this.2⟩
      show (RNode.allData (.node d cs)).Perm ((RNode.node d (detachL cs i).1).allData ++ _)
      rw [allData_node, allData_node, List.cons_append]
      exact List.Perm.cons _ this.1
  intro cs i s h
  have := main (.node ⟨0, (0, 0), 0, 0, false⟩ cs) i s h
  refine ⟨?_, this.2⟩
  have h1 := this.1
  rw [allData_node] at h1
  have h2 : (RNode.detachN (.node ⟨0, (0, 0), 0, 0, false⟩ cs) i).1.allData
      = (⟨0, (0, 0), 0, 0, false⟩ : NodeData) :: allDataL (detachL cs i).1 := rfl
  rw [h2, List.cons_append] at h1
  exact (List.perm_cons _).mp h1

theorem detachN_some {t : RNode} {i : ℕ} {s : RNode} (h : (t.detachN i).2 = some s) :
    (t.allData).Perm ((t.detachN i).1.allData ++ s.allData) ∧ s.dat.nid = i := by
  cases t with
  | node d cs =>
    have h2 : (detachL cs i).2 = some s := h
    have := detachL_some cs i s h2
    refine ⟨?_, this.2⟩
    show (RNode.allData (.node d cs)).Perm ((RNode.node d (detachL cs i).1).allData ++ _)
    rw [allData_node, allData_node, List.cons_append]
    exact List.Perm.cons _ this.1

theorem detachL_isSome : ∀ (cs : List RNode) (i : ℕ),
    ((detachL cs i).2).isSome ↔ ∃ c ∈ cs, i ∈ c.ids := by
  intro cs i
  rcases h : (detachL cs i).2 with _ | s
  · simp only [Option.isSome_none, Bool.false_eq_true, false_iff]
    exact (detachL_none cs i h).2
  · simp only [Option.isSome_some, true_iff]
    have := detachL_some cs i s h
    have hmem : s.dat ∈ allDataL cs := by
      have hp := this.1
      have : s.dat ∈ allDataL (detachL cs i).1 ++ s.allData :=
        List.mem_append.mpr (Or.inr (dat_mem_allData s))
      exact hp.symm.subset this
    rcases mem_allDataL.mp hmem with ⟨c, hc, hdc⟩
    exact ⟨c, hc, mem_ids.mpr ⟨s.dat, hdc, this.2⟩⟩

theorem detachN_costOk : ∀ (t : RNode), CostOK t →
    CostOK (t.detachN i).1 ∧ (∀ s, (t.detachN i).2 = some s → CostOK s) := by
  intro t
  induction t using RNode.inductionOn with
  | _ d cs ih =>
    intro hok
    rcases costOk_iff.mp hok with ⟨hcost, hsub⟩
    have hL : ∀ (xs : List RNode), (∀ x ∈ xs, x ∈ cs) →
        (∀ x ∈ (detachL xs i).1, x.dat.cost = d.cost + x.dat.addCost →
          x.dat.cost = d.cost + x.dat.addCost) →
        ((∀ x ∈ xs, x.dat.cost = d.cost + x.dat.addCost) →
          (∀ x ∈ (detachL xs i).1, x.dat.cost = d.cost + x.dat.addCost)) ∧
        ((∀ x ∈ xs, CostOK x) → (∀ x ∈ (detachL xs i).1, CostOK x)) ∧
        (∀ s, (detachL xs i).2 = some s → (∀ x ∈ xs, CostOK x) → CostOK s) := by
      intro xs
      induction xs with
      | nil =>
        intro _ _
        refine ⟨fun _ x hx => absurd hx ?_, fun _ x hx => absurd hx ?_, fun s hs _ => ?_⟩
        · simp [detachL]
        · simp [detachL]
        · simp [detachL] at hs
      | cons x txs ihx =>
        intro hinc _
        by_cases hxi : x.dat.nid = i
        · refine ⟨?_, ?_, ?_⟩
          · intro hcosts y hy
            rw [detachL, if_pos hxi] at hy
            exact hcosts y (List.mem_cons_of_mem _ hy)
          · intro hoks y hy
            rw [detachL, if_pos hxi] at hy
            exact hoks y (List.mem_cons_of_mem _ hy)
          · intro s hs hoks
            rw [detachL, if_pos hxi] at hs
            cases hs
            exact hoks x (List.mem_cons_self _ _)
        · have hrec := ihx (fun y hy => hinc y (List.mem_cons_of_mem _ hy)) (fun _ _ h => h)
          rcases h2 : (x.detachN i).2 with _ | s2
          · have hred : (detachL (x :: txs) i).1 = x :: (detachL txs i).1 := by
              rw [detachL, if_neg hxi]
              simp only [h2]
            have hred2 : (detachL (x :: txs) i).2 = (detachL txs i).2 := by
              rw [detachL, if_neg hxi]
              simp only [h2]
            refine ⟨?_, ?_, ?_⟩
            · intro hcosts y hy
              rw [hred] at hy
              rcases List.mem_cons.mp hy with rfl | hy2
              · exact hcosts y (List.mem_cons_self _ _)
              · exact hrec.1 (fun z hz => hcosts z (List.mem_cons_of_mem _ hz)) y hy2
            · intro hoks y hy
              rw [hred] at hy
              rcases List.mem_cons.mp hy with rfl | hy2
              · exact hoks y (List.mem_cons_self _ _)
              · exact hrec.2.1 (fun z hz => hoks z (List.mem_cons_of_mem _ hz)) y hy2
            · intro s hs hoks
              rw [hred2] at hs
              exact hrec.2.2 s hs (fun z hz => hoks z (List.mem_cons_of_mem _ hz))
          · have hred : (detachL (x :: txs) i).1 = (x.detachN i).1 :: txs := by
              rw [detachL, if_neg hxi]
              simp only [h2]
            have hred2 : (detachL (x :: txs) i).2 = some s2 := by
              rw [detachL, if_neg hxi]
              simp only [h2]
            have hx := ih x (hinc x (List.mem_cons_self _ _))
            refine ⟨?_, ?_, ?_⟩
            · intro hcosts y hy
              rw [hred] at hy
              rcases List.mem_cons.mp hy with rfl | hy2
              · rw [detachN_dat]
                exact hcosts x (List.mem_cons_self _ _)
              · exact hcosts y (List.mem_cons_of_mem _ hy2)
            · intro hoks y hy
              rw [hred] at hy
              rcases List.mem_cons.mp hy with rfl | hy2
              · exact (hx (hoks x (List.mem_cons_self _ _))).1
              · exact hoks y (List.mem_cons_of_mem _ hy2)
            · intro s hs hoks
              rw [hred2] at hs
              cases hs
              exact (hx (hoks x (List.mem_cons_self _ _))).2 s2 h2
    have := hL cs (fun x hx => hx) (fun _ _ h => h)
    constructor
    · show CostOK (.node d (detachL cs i).1)
      exact costOk_iff.mpr ⟨this.1 hcost, this.2.1 hsub⟩
    · intro s hs
      exact this.2.2 s hs hsub

/-! ### Lemmas about `recostSub` (`Node.recost`) -/

theorem recostL_eq_map (pc : Cost) : ∀ cs : List RNode,
    recostL pc cs = cs.map (RNode.recostSub pc) := by
  intro cs
  induction cs with
  | nil => rfl
  | cons c cs ih => rw [recostL, ih]; rfl

theorem recost_dat (pc : Cost) (t : RNode) :
    (t.recostSub pc).dat = { t.dat with cost := pc + t.dat.addCost } := by
  cases t with
  | node d cs => rfl

theorem recost_kids (pc : Cost) (d : NodeData) (cs : List RNode) :
    (RNode.recostSub pc (.node d cs)).kids = cs.map (RNode.recostSub (pc + d.addCost)) := by
  rw [RNode.recostSub, RNode.kids, recostL_eq_map]

theorem recost_strip (pc : Cost) : ∀ t : RNode,
    ((t.recostSub pc).allData).map stripC = (t.allData).map stripC := by
  have main : ∀ t : RNode, ∀ pc : Cost,
      ((t.recostSub pc).allData).map stripC = (t.allData).map stripC := by
    intro t
    induction t using RNode.inductionOn with
    | _ d cs ih =>
      intro pc
      rw [RNode.recostSub, allData_node, allData_node, List.map_cons, List.map_cons]
      have hhead : stripC { d with cost := pc + d.addCost } = stripC d := by
        simp [stripC]
      rw [hhead]
      congr 1
      rw [recostL_eq_map]
      induction cs with
      | nil => rfl
      | cons x xs ihx =>
        rw [List.map_cons, allDataL, allDataL, List.map_append, List.map_append,
          ih x (List.mem_cons_self _ _), ihx (fun c hc => ih c (List.mem_cons_of_mem _ hc))]
  intro t
  exact main t pc

theorem recost_ids (pc : Cost) (t : RNode) : (t.recostSub pc).ids = t.ids := by
  have h := recost_strip pc t
  have h2 := congrArg (List.map (fun x : ℕ × Pt × Cost × Bool => x.1)) h
  rw [List.map_map, List.map_map] at h2
  exact h2

theorem recost_costOk : ∀ (t : RNode) (pc : Cost), CostOK (t.recostSub pc) := by
  intro t
  induction t using RNode.inductionOn with
  | _ d cs ih =>
    intro pc
    rw [RNode.recostSub]
    refine costOk_iff.mpr ⟨?_, ?_⟩
    · intro c hc
      rw [recostL_eq_map] at hc
      rcases List.mem_map.mp hc with ⟨x, hx, rfl⟩
      rw [recost_dat]
    · intro c hc
      rw [recostL_eq_map] at hc
      rcases List.mem_map.mp hc with ⟨x, hx, rfl⟩
      exact ih x hx _

theorem recost_le_mem : ∀ (t : RNode) (pc : Cost), CostOK t →
    pc + t.dat.addCost ≤ t.dat.cost →
    ∀ d2 ∈ (t.recostSub pc).allData, ∃ d ∈ t.allData, stripC d2 = stripC d ∧ d2.cost ≤ d.cost := by
  intro t
  induction t using RNode.inductionOn with
  | _ d cs ih =>
    intro pc hok hle d2 hd2
    rcases costOk_iff.mp hok with ⟨hcost, hsub⟩
    rw [RNode.recostSub, allData_node, List.mem_cons] at hd2
    rcases hd2 with rfl | hd2
    · refine ⟨d, List.mem_cons_self _ _, ?_, ?_⟩
      · simp [stripC]
      · simpa using hle
    · rw [recostL_eq_map] at hd2
      rcases mem_allDataL.mp hd2 with ⟨c2, hc2, hdc2⟩
      rcases List.mem_map.mp hc2 with ⟨c, hc, rfl⟩
      have hcle : (pc + d.addCost) + c.dat.addCost ≤ c.dat.cost := by
        rw [hcost c hc]
        exact add_le_add_right hle _
      rcases ih c hc _ (hsub c hc) hcle d2 hdc2 with ⟨d3, hd3, hs, hl⟩
      exact ⟨d3, by rw [allData_node]; exact List.mem_cons_of_mem _ (mem_allDataL.mpr ⟨c, hc, hd3⟩),
        hs, hl⟩

/-! ### Cost monotonicity along descent (nonnegative edge costs) -/

theorem costOk_le_of_mem : ∀ (t : RNode), CostOK t →
    (∀ d ∈ t.allData, 0 ≤ d.addCost) →
    ∀ d ∈ t.allData, t.dat.cost ≤ d.cost := by
  intro t
  induction t using RNode.inductionOn with
  | _ d cs ih =>
    intro hok hnn d2 hd2
    rcases costOk_iff.mp hok with ⟨hcost, hsub⟩
    rw [allData_node, List.mem_cons] at hd2
    rcases hd2 with rfl | hd2
    · exact le_refl _
    · rcases mem_allDataL.mp hd2 with ⟨c, hc, hdc⟩
      have hsubmem : ∀ d3 ∈ c.allData, d3 ∈ (RNode.node d cs).allData := by
        intro d3 hd3
        rw [allData_node]
        exact List.mem_cons_of_mem _ (mem_allDataL.mpr ⟨c, hc, hd3⟩)
      have h1 : (RNode.node d cs).dat.cost ≤ c.dat.cost := by
        rw [hcost c hc]
        exact le_add_of_nonneg_right (hnn c.dat (hsubmem c.dat (dat_mem_allData c)))
      exact le_trans h1
        (ih c hc (hsub c hc) (fun d3 hd3 => hnn d3 (hsubmem d3 hd3)) d2 hdc)

/-! ### Lemmas about `mapD` (`Node.mark_goal`) -/

theorem mapD_false : ∀ (t : RNode) (i : ℕ) (f : NodeData → NodeData),
    (t.mapD i f).2 = false → (t.mapD i f).1 = t := by
  intro t
  induction t using RNode.inductionOn with
  | _ d cs ih =>
    intro i f hfl
    rw [RNode.mapD] at hfl ⊢
    by_cases hd : d.nid = i
    · rw [if_pos hd] at hfl
      simp at hfl
    · rw [if_neg hd] at hfl ⊢
      have hfl2 : (mapDL cs i f).2 = false := hfl
      have hL : ∀ (xs : List RNode), (∀ x ∈ xs, x ∈ cs) → (mapDL xs i f).2 = false →
          (mapDL xs i f).1 = xs := by
        intro xs
        induction xs with
        | nil => intro _ _; rfl
        | cons x txs ihx =>
          intro hinc hf
          rw [mapDL] at hf ⊢
          by_cases hx : (x.mapD i f).2 = true
          · rw [if_pos hx] at hf
            simp at hf
          · rw [if_neg hx] at hf ⊢
            have hf2 : (mapDL txs i f).2 = false := hf
            rw [ihx (fun y hy => hinc y (List.mem_cons_of_mem _ hy)) hf2]
      rw [hL cs (fun x hx => hx) hfl2]

theorem mapD_isSome : ∀ (t : RNode) (i : ℕ) (f : NodeData → NodeData),
    ((t.mapD i f).2 = true) ↔ (t.findD i).isSome := by
  intro t
  induction t using RNode.inductionOn with
  | _ d cs ih =>
    intro i f
    rw [RNode.mapD, RNode.findD]
    by_cases hd : d.nid = i
    · simp [if_pos hd]
    · rw [if_neg hd, if_neg hd]
      show ((mapDL cs i f).2 = true) ↔ (findDL cs i).isSome
      induction cs with
      | nil => simp [mapDL, findDL]
      | cons x xs ihx =>
        rw [mapDL, findDL]
        by_cases hx : (x.mapD i f).2 = true
        · have hsome : (x.findD i).isSome := (ih x (List.mem_cons_self _ _) i f).mp hx
          rcases h2 : x.findD i with _ | d2
          · rw [h2] at hsome; cases hsome
          · simp [if_pos hx]
        · have hnone : x.findD i = none := by
            rcases h2 : x.findD i with _ | d2
            · rfl
            · exact absurd ((ih x (List.mem_cons_self _ _) i f).mpr (h2 ▸ rfl)) hx
          rw [if_neg hx, hnone]
          exact ihx (fun c2 hc2 => ih c2 (List.mem_cons_of_mem _ hc2))

theorem mapD_findD (f : NodeData → NodeData) (hnid : ∀ d, (f d).nid = d.nid) :
    ∀ (t : RNode) (i j : ℕ),
    ((t.mapD i f).1).findD j =
      if i = j then (t.findD j).map f else t.findD j := by
  intro t
  induction t using RNode.inductionOn with
  | _ d cs ih =>
    intro i j
    rw [RNode.mapD]
    by_cases hd : d.nid = i
    · rw [if_pos hd, RNode.findD, RNode.findD, hnid d]
      by_cases hj : d.nid = j
      · rw [if_pos hj, if_pos hj, if_pos (hd ▸ hj)]
        rfl
      · rw [if_neg hj, if_neg hj]
        by_cases hij : i = j
        · exact absurd (hd.trans hij) hj
        · rw [if_neg hij]
    · rw [if_neg hd]
      show RNode.findD (.node d (mapDL cs i f).1) j = _
      rw [RNode.findD, RNode.findD]
      by_cases hj : d.nid = j
      · have hij : ¬ i = j := fun h => hd (h ▸ hj)
        rw [if_pos hj, if_pos hj, if_neg hij]
      · rw [if_neg hj, if_neg hj]
        have hL : ∀ (xs : List RNode), (∀ x ∈ xs, x ∈ cs) →
            findDL (mapDL xs i f).1 j = if i = j then (findDL xs j).map f else findDL xs j := by
          intro xs
          induction xs with
          | nil =>
            intro _
            by_cases hij : i = j
            · rw [if_pos hij]; rfl
            · rw [if_neg hij]; rfl
          | cons x txs ihx =>
            intro hinc
            rw [mapDL]
            by_cases hx : (x.mapD i f).2 = true
            · rw [if_pos hx]
              show findDL ((x.mapD i f).1 :: txs) j = _
              rw [findDL, findDL, ih x (hinc x (List.mem_cons_self _ _)) i j]
              by_cases hij : i = j
              · rw [if_pos hij, if_pos hij]
                rcases h2 : x.findD j with _ | d2
                · exfalso
                  have := (mapD_isSome x i f).mp hx
                  rw [hij, h2] at this
                  cases this
                · rfl
              · rw [if_neg hij, if_neg hij]
            · rw [if_neg hx]
              show findDL (x :: (mapDL txs i f).1) j = _
              rw [findDL, findDL]
              rcases h2 : x.findD j with _ | d2 <;> simp only [h2]
              · exact ihx (fun y hy => hinc y (List.mem_cons_of_mem _ hy))
              · by_cases hij : i = j
                · exfalso
                  have hnotsome : ¬ (x.findD i).isSome = true := fun hs =>
                    hx ((mapD_isSome x i f).mpr hs)
                  rw [hij, h2] at hnotsome
                  exact hnotsome rfl
                · rw [if_neg hij]
        exact hL cs (fun x hx => hx)

theorem mapD_dat (t : RNode) (i : ℕ) (f : NodeData → NodeData) :
    (t.mapD i f).1.dat = if t.dat.nid = i then f t.dat else t.dat := by
  cases t with
  | node d cs =>
    rw [RNode.mapD]
    simp only [RNode.dat]
    by_cases hd : d.nid = i
    · rw [if_pos hd, if_pos hd]
    · rw [if_neg hd, if_neg hd]

theorem mapD_map_proj {α : Type} (g : NodeData → α) (f : NodeData → NodeData)
    (hproj : ∀ d, g (f d) = g d) : ∀ (t : RNode) (i : ℕ),
    ((t.mapD i f).1.allData).map g = (t.allData).map g := by
  intro t
  induction t using RNode.inductionOn with
  | _ d cs ih =>
    intro i
    rw [RNode.mapD]
    by_cases hd : d.nid = i
    · rw [if_pos hd]
      show ((RNode.node (f d) cs).allData).map g = _
      rw [allData_node, allData_node, List.map_cons, List.map_cons, hproj d]
    · rw [if_neg hd]
      show ((RNode.node d (mapDL cs i f).1).allData).map g = _
      rw [allData_node, allData_node, List.map_cons, List.map_cons]
      congr 1
      have hL : ∀ (xs : List RNode), (∀ x ∈ xs, x ∈ cs) →
          (allDataL (mapDL xs i f).1).map g = (allDataL xs).map g := by
        intro xs
        induction xs with
        | nil => intro _; rfl
        | cons x txs ihx =>
          intro hinc
          rw [mapDL]
          by_cases hx : (x.mapD i f).2 = true
          · rw [if_pos hx]
            show (allDataL ((x.mapD i f).1 :: txs)).map g = _
            rw [allDataL, allDataL, List.map_append, List.map_append,
              ih x (hinc x (List.mem_cons_self _ _)) i]
          · rw [if_neg hx]
            show (allDataL (x :: (mapDL txs i f).1)).map g = _
            rw [allDataL, allDataL, List.map_append, List.map_append,
              ihx (fun y hy => hinc y (List.mem_cons_of_mem _ hy))]
      exact hL cs (fun x hx => hx)

theorem mapD_costOk (f : NodeData → NodeData)
    (hcostf : ∀ d, (f d).cost = d.cost) (haddf : ∀ d, (f d).addCost = d.addCost) :
    ∀ (t : RNode) (i : ℕ), CostOK t → CostOK (t.mapD i f).1 := by
  intro t
  induction t using RNode.inductionOn with
  | _ d cs ih =>
    intro i hok
    rcases costOk_iff.mp hok with ⟨hcost, hsub⟩
    rw [RNode.mapD]
    by_cases hd : d.nid = i
    · rw [if_pos hd]
      refine costOk_iff.mpr ⟨?_, hsub⟩
      intro c hc
      rw [hcostf d]
      exact hcost c hc
    · rw [if_neg hd]
      show CostOK (.node d (mapDL cs i f).1)
      have hL : ∀ (xs : List RNode), (∀ x ∈ xs, x ∈ cs) →
          (∀ x ∈ xs, x.dat.cost = d.cost + x.dat.addCost) →
          (∀ x ∈ xs, CostOK x) →
          (∀ x ∈ (mapDL xs i f).1, x.dat.cost = d.cost + x.dat.addCost) ∧
            (∀ x ∈ (mapDL xs i f).1, CostOK x) := by
        intro xs
        induction xs with
        | nil =>
          intro _ _ _
          exact ⟨fun x hx => absurd hx (by simp [mapDL]), fun x hx => absurd hx (by simp [mapDL])⟩
        | cons x txs ihx =>
          intro hinc hcosts hoks
          rw [mapDL]
          by_cases hx : (x.mapD i f).2 = true
          · rw [if_pos hx]
            constructor
            · intro y hy
              rcases List.mem_cons.mp hy with rfl | hy2
              · rw [mapD_dat]
                by_cases hxi : x.dat.nid = i
                · rw [if_pos hxi, hcostf, haddf]
                  exact hcosts x (List.mem_cons_self _ _)
                · rw [if_neg hxi]
                  exact hcosts x (List.mem_cons_self _ _)
              · exact hcosts y (List.mem_cons_of_mem _ hy2)
            · intro y hy
              rcases List.mem_cons.mp hy with rfl | hy2
              · exact ih x (hinc x (List.mem_cons_self _ _)) i
                  (hoks x (List.mem_cons_self _ _))
              · exact hoks y (List.mem_cons_of_mem _ hy2)
          · rw [if_neg hx]
            have hrec := ihx (fun y hy => hinc y (List.mem_cons_of_mem _ hy))
              (fun y hy => hcosts y (List.mem_cons_of_mem _ hy))
              (fun y hy => hoks y (List.mem_cons_of_mem _ hy))
            constructor
            · intro y hy
              rcases List.mem_cons.mp hy with rfl | hy2
              · exact hcosts y (List.mem_cons_self _ _)
              · exact hrec.1 y hy2
            · intro y hy
              rcases List.mem_cons.mp hy with rfl | hy2
              · exact hoks y (List.mem_cons_self _ _)
              · exact hrec.2 y hy2
      have := hL cs (fun x hx => hx) hcost hsub
      exact costOk_iff.mpr ⟨this.1, this.2⟩

/-! ### Lemmas about `pathTo` (`path_down`) -/

theorem pathTo_isSome : ∀ (t : RNode) (i : ℕ), (t.pathTo i).isSome ↔ i ∈ t.ids := by
  intro t
  induction t using RNode.inductionOn with
  | _ d cs ih =>
    intro i
    rw [RNode.pathTo, ids_node]
    by_cases hd : d.nid = i
    · simp [if_pos hd, hd]
    · rw [if_neg hd]
      simp only [List.mem_cons]
      have hL : ∀ (xs : List RNode), (∀ x ∈ xs, x ∈ cs) →
          ((pathToL xs i).isSome ↔ ∃ c ∈ xs, i ∈ c.ids) := by
        intro xs
        induction xs with
        | nil => intro _; simp [pathToL]
        | cons x txs ihx =>
          intro hinc
          rw [pathToL]
          rcases h2 : x.pathTo i with _ | p <;> simp only [h2]
          · have hnx : ¬ i ∈ x.ids := by
              intro hmem
              have := (ih x (hinc x (List.mem_cons_self _ _)) i).mpr hmem
              rw [h2] at this
              cases this
            rw [ihx (fun y hy => hinc y (List.mem_cons_of_mem _ hy))]
            constructor
            · rintro ⟨c, hc, hcm⟩
              exact ⟨c, List.mem_cons_of_mem _ hc, hcm⟩
            · rintro ⟨c, hc, hcm⟩
              rcases List.mem_cons.mp hc with rfl | hc2
              · exact absurd hcm hnx
              · exact ⟨c, hc2, hcm⟩
          · simp only [Option.isSome_some, true_iff]
            have := (ih x (hinc x (List.mem_cons_self _ _)) i).mp (h2 ▸ rfl)
            exact ⟨x, List.mem_cons_self _ _, this⟩
      constructor
      · intro h
        have h2 : (pathToL cs i).isSome := by
          rcases h3 : pathToL cs i with _ | p
          · rw [h3] at h; cases h
          · rfl
        rcases (hL cs (fun x hx => hx)).mp h2 with ⟨c, hc, hcm⟩
        exact Or.inr (mem_idsL.mpr ⟨c, hc, hcm⟩)
      · rintro (h | h)
        · exact absurd h.symm hd
        · have hs := (hL cs (fun x hx => hx)).mpr (mem_idsL.mp h)
          rcases h3 : pathToL cs i with _ | p
          · rw [h3] at hs; cases hs
          · rfl

theorem sublist_idsL {c : RNode} : ∀ {cs : List RNode}, c ∈ cs →
    List.Sublist c.ids ((allDataL cs).map NodeData.nid) := by
  intro cs
  induction cs with
  | nil => intro h; cases h
  | cons x xs ih =>
    intro h
    have hsplit : (allDataL (x :: xs)).map NodeData.nid
        = x.ids ++ (allDataL xs).map NodeData.nid := by
      rw [allDataL, List.map_append]
      rfl
    rcases List.mem_cons.mp h with rfl | h2
    · rw [hsplit]
      exact List.sublist_append_left _ _
    · rw [hsplit]
      exact List.Sublist.trans (ih h2) (List.sublist_append_right _ _)

theorem pathTo_sublist : ∀ (t : RNode) (i : ℕ) (p : List ℕ),
    t.pathTo i = some p → List.Sublist p t.ids := by
  intro t
  induction t using RNode.inductionOn with
  | _ d cs ih =>
    intro i p hp
    rw [RNode.pathTo] at hp
    rw [ids_node]
    by_cases hd : d.nid = i
    · rw [if_pos hd] at hp
      cases hp
      exact List.Sublist.cons₂ _ (List.nil_sublist _)
    · rw [if_neg hd] at hp
      rcases h2 : pathToL cs i with _ | p2
      · rw [h2] at hp; cases hp
      · rw [h2] at hp
        cases hp
        refine List.Sublist.cons₂ _ ?_
        have hL : ∀ (xs : List RNode), (∀ x ∈ xs, x ∈ cs) → pathToL xs i = some p2 →
            List.Sublist p2 ((allDataL xs).map NodeData.nid) := by
          intro xs
          induction xs with
          | nil => intro _ h; simp [pathToL] at h
          | cons x txs ihx =>
            intro hinc hf
            rw [pathToL] at hf
            have hsplit : (allDataL (x :: txs)).map NodeData.nid
                = x.ids ++ (allDataL txs).map NodeData.nid := by
              rw [allDataL, List.map_append]
              rfl
            rcases h3 : x.pathTo i with _ | p3
            · rw [h3] at hf
              rw [hsplit]
              exact List.Sublist.trans
                (ihx (fun y hy => hinc y (List.mem_cons_of_mem _ hy)) hf)
                (List.sublist_append_right _ _)
            · rw [h3] at hf
              cases hf
              rw [hsplit]
              exact List.Sublist.trans (ih x (hinc x (List.mem_cons_self _ _)) i p2 h3)
                (List.sublist_append_left _ _)
        exact hL cs (fun x hx => hx) h2

/-! ### Spaces (`space.py`, `goals.py`) -/

noncomputable section

/-- Translation of `goals.BoxGoal2D` (the goal payload `goal_val` carries
no planning semantics and is omitted). -/
structure BoxGoal where
  ll : Pt
  ur : Pt

/-- Translation of `BoxGoal2D.point_in`. -/
def BoxGoal.pointIn (g : BoxGoal) (p : Pt) : Prop :=
  g.ll.1 ≤ p.1 ∧ g.ll.2 ≤ p.2 ∧ p.1 ≤ g.ur.1 ∧ p.2 ≤ g.ur.2

instance (g : BoxGoal) (p : Pt) : Decidable (g.pointIn p) := by
  unfold BoxGoal.pointIn; infer_instance

/-- A wall, given as its `[lower_left, upper_right]` corner pair. -/
abbrev Wall : Type := Pt × Pt

/-- Strict in-bounds test used by `collision_free`:
`np.all(point > 0) and np.all(point < dims)`. -/
def inBounds (dims p : Pt) : Prop :=
  0 < p.1 ∧ 0 < p.2 ∧ p.1 < dims.1 ∧ p.2 < dims.2

instance (dims p : Pt) : Decidable (inBounds dims p) := by
  unfold inBounds; infer_instance

/-- Translation of `EmptySpace.collision_free`: both endpoints strictly
inside the open bounding box. -/
def emptyCollisionFree (dims pf pt : Pt) : Prop :=
  inBounds dims pf ∧ inBounds dims pt

instance (dims pf pt : Pt) : Decidable (emptyCollisionFree dims pf pt) := by
  unfold emptyCollisionFree; infer_instance

/-- Translation of `check_point_in_goals`. -/
def checkGoals (goals : List BoxGoal) (p : Pt) : Prop :=
  ∃ g ∈ goals, g.pointIn p

instance (goals : List BoxGoal) (p : Pt) : Decidable (checkGoals goals p) := by
  unfold checkGoals; infer_instance

/-- The four outer boundary segments, in the order `get_nearest_free_point`
checks them (bottom, left, right, top). -/
def outerEdges (dims : Pt) : List (Pt × Pt) :=
  [((0, 0), (dims.1, 0)), ((0, 0), (0, dims.2)),
   ((dims.1, 0), dims), ((0, dims.2), dims)]

/-- First intersection of the segment `pf → pt` with a list of segments,
following the scanning loops of `get_nearest_free_point`. -/
def firstHit (pf pt : Pt) : List (Pt × Pt) → Option Pt
  | [] => none
  | e :: es =>
    match findIntersectionPoint pf pt e.1 e.2 with
    | some q => some q
    | none => firstHit pf pt es

/-- Translation of `EmptySpace.get_nearest_free_point`: the first outer
boundary edge intersection found, otherwise `point_to` unchanged. -/
def emptyGetNearestFreePoint (dims pf pt : Pt) : Pt :=
  match firstHit pf pt (outerEdges dims) with
  | some q => q
  | none => pt

/-- Translation of `EmptySpace.get_path_cost` (`np.inf` on collision,
Euclidean distance otherwise). -/
def emptyGetPathCost (dims pf pt : Pt) : Cost :=
  if emptyCollisionFree dims pf pt then ((norm2 (pf - pt) : ℝ) : Cost) else ⊤

/-- The four edge segments of a wall, in the order `collision_free` and
`get_nearest_free_point` build them. -/
def wallEdges (w : Wall) : List (Pt × Pt) :=
  [(w.1, (w.1.1, w.2.2)), (w.1, (w.2.1, w.1.2)),
   ((w.1.1, w.2.2), w.2), ((w.2.1, w.1.2), w.2)]

/-- The bounding-box prefilter of `WallSpace.collision_free` (the wall is
only checked when the segment's bounding box meets its rectangle). -/
def wallNear (pf pt : Pt) (w : Wall) : Prop :=
  ¬ (min pf.1 pt.1 > w.2.1 ∨ min pf.2 pt.2 > w.2.2 ∨
     max pf.1 pt.1 < w.1.1 ∨ max pf.2 pt.2 < w.1.2)

instance (pf pt : Pt) (w : Wall) : Decidable (wallNear pf pt w) := by
  unfold wallNear; infer_instance

/-- Translation of `WallSpace.collision_free`: endpoints in bounds and,
for every wall passing the bounding-box prefilter, neither endpoint
inside the wall and no edge of the wall intersected by the segment. -/
def wallCollisionFree (dims : Pt) (walls : List Wall) (pf pt : Pt) : Prop :=
  inBounds dims pf ∧ inBounds dims pt ∧
    ∀ w ∈ walls, wallNear pf pt w →
      (¬ pointInBox w.1 w.2 pf ∧ ¬ pointInBox w.1 w.2 pt ∧
        ∀ e ∈ wallEdges w, ¬ linesIntersect pf pt e.1 e.2)

instance (dims : Pt) (walls : List Wall) (pf pt : Pt) :
    Decidable (wallCollisionFree dims walls pf pt) := by
  unfold wallCollisionFree; infer_instance

/-- Translation of `WallSpace.get_path_cost` (inherited body of
`EmptySpace.get_path_cost`, dispatching to `WallSpace.collision_free`). -/
def wallGetPathCost (dims : Pt) (walls : List Wall) (pf pt : Pt) : Cost :=
  if wallCollisionFree dims walls pf pt then ((norm2 (pf - pt) : ℝ) : Cost) else ⊤

/-- The wall-edge intersection points collected by
`WallSpace.get_nearest_free_point`, walls and edges in scanning order. -/
def wallHits (pf pt : Pt) : List Wall → List Pt
  | [] => []
  | w :: ws =>
    (if wallNear pf pt w then
      (wallEdges w).filterMap (fun e => findIntersectionPoint pf pt e.1 e.2)
     else []) ++ wallHits pf pt ws

/-- The selection loop of `WallSpace.get_nearest_free_point`: start from
the first intersection point, replace on strictly smaller distance to
`point_from`. -/
def nearestPointTo (pf q0 : Pt) (qs : List Pt) : Pt :=
  qs.foldl (fun best q => if norm2 (pf - q) < norm2 (pf - best) then q else best) q0

/-- Translation of `WallSpace.get_nearest_free_point`: first outer
boundary intersection if any; otherwise the wall-edge intersection
nearest to `point_from`; otherwise `point_to` unchanged. -/
def wallGetNearestFreePoint (dims : Pt) (walls : List Wall) (pf pt : Pt) : Pt :=
  match firstHit pf pt (outerEdges dims) with
  | some q => q
  | none =>
    match wallHits pf pt walls with
    | [] => pt
    | q :: qs => nearestPointTo pf q qs

/-- Translation of `WallSpace._point_in_walls`. -/
def pointInWalls (walls : List Wall) (p : Pt) : Prop :=
  ∃ w ∈ walls, pointInBox w.1 w.2 p

instance (walls : List Wall) (p : Pt) : Decidable (pointInWalls walls p) := by
  unfold pointInWalls; infer_instance

/-- Translation of `WallSpace.get_random_free_point`: rejection sampling
by unbounded recursion.  The injected random stream is passed as an
explicit list of samples; `none` means the recursion is still running
after consuming the whole prefix. -/
def wallGetRandomFreePoint (walls : List Wall) : List Pt → Option Pt
  | [] => none
  | s :: rest => if pointInWalls walls s then wallGetRandomFreePoint walls rest else some s

end

/-! ### Planners (`rrt_base.py`, `rrt_star.py`)

The planner consumes a space through the operations `get_path_cost`,
`get_nearest_free_point` and `check_point_in_goals` (polymorphic over
`EmptySpace` / `WallSpace` in the Python code, a record of functions
here).  `step()` additionally draws `q_rand = get_random_free_point()`;
the sample is passed in explicitly. -/

noncomputable section

/-- The space operations the planner dispatches on. -/
structure Space where
  dims : Pt
  pathCost : Pt → Pt → Cost
  nearestFreePoint : Pt → Pt → Pt
  inGoals : Pt → Bool

/-- Translation of the `EmptySpace` method suite. -/
def EmptySpace.toSpace (dims : Pt) (goals : List BoxGoal) : Space where
  dims := dims
  pathCost := emptyGetPathCost dims
  nearestFreePoint := emptyGetNearestFreePoint dims
  inGoals := fun p => decide (checkGoals goals p)

/-- Translation of the `WallSpace` method suite. -/
def WallSpace.toSpace (dims : Pt) (goals : List BoxGoal) (walls : List Wall) : Space where
  dims := dims
  pathCost := wallGetPathCost dims walls
  nearestFreePoint := wallGetNearestFreePoint dims walls
  inGoals := fun p => decide (checkGoals goals p)

/-- Planner parameters fixed at construction: `_ssize`, `_tol`
(`min(dims) * 1e-6`), and for RRT* `_close`. -/
structure RRTParams where
  ssize : ℝ
  tol : ℝ
  close : ℝ

/-- The derived tolerance `min(self._dims) * 1e-6`. -/
def mkTol (dims : Pt) : ℝ := min dims.1 dims.2 * (1 / 1000000)

/-- Translation of `RRT.steer`. -/
def steer (ssize : ℝ) (pf pt : Pt) : Pt :=
  if norm2 (pt - pf) < ssize then pt
  else pf + (ssize / norm2 (pt - pf)) • (pt - pf)

/-- Common tail of `_step_to`: `add_node` (whose `assert` is the `none`
branch), then `mark_goal` when the new point lies in a goal region, then
return the new node. -/
def finishStep (sp : Space) (t : DirectedTree) (nId : ℕ) (q : Pt) (c : Cost) :
    Option (DirectedTree × Option ℕ) :=
  match t.addNode nId q c with
  | none => none
  | some (t1, newId) =>
    some (if sp.inGoals q then t1.markGoal newId else t1, some newId)

/-- Translation of `RRT._step_to(q_rand)`: nearest node, steer, cost the
path; on infinite cost fall back to `get_nearest_free_point` and abort
(`some (t, none)` — "no node added") when the fallback point is within
tolerance of the nearest node; otherwise recost and connect.  The outer
`none` marks the error branches of the underlying tree operations. -/
def stepTo (sp : Space) (ps : RRTParams) (t : DirectedTree) (qRand : Pt) :
    Option (DirectedTree × Option ℕ) :=
  match t.nearest qRand with
  | none => none
  | some nId =>
    match t.lookup nId with
    | none => none
    | some nd =>
      if sp.pathCost nd.pt (steer ps.ssize nd.pt qRand) = ⊤ then
        if norm2 (nd.pt - sp.nearestFreePoint nd.pt (steer ps.ssize nd.pt qRand)) < ps.tol then
          some (t, none)
        else
          finishStep sp t nId (sp.nearestFreePoint nd.pt (steer ps.ssize nd.pt qRand))
            (sp.pathCost nd.pt (sp.nearestFreePoint nd.pt (steer ps.ssize nd.pt qRand)))
      else
        finishStep sp t nId (steer ps.ssize nd.pt qRand)
          (sp.pathCost nd.pt (steer ps.ssize nd.pt qRand))

/-- One candidate evaluation of the RRT* neighborhood minimization: the
accumulator holds `(cost_min, node_min / new_cost_min / steer_min)`,
starting from `(np.inf, None)`; a candidate replaces it on strictly
smaller total cost.  On infinite path cost the nearest-free-point
fallback is attempted, a no-progress fallback counting as infinite. -/
def candStep (sp : Space) (ps : RRTParams) (qRand : Pt) (t : DirectedTree)
    (acc : Cost × Option (ℕ × Cost × Pt)) (nid : ℕ) : Cost × Option (ℕ × Cost × Pt) :=
  match t.lookup nid with
  | none => acc
  | some nd =>
    if sp.pathCost nd.pt (steer ps.ssize nd.pt qRand) = ⊤ then
      if norm2 (nd.pt - sp.nearestFreePoint nd.pt (steer ps.ssize nd.pt qRand)) < ps.tol then
        -- cost_path = np.inf: the total can never beat the accumulator
        acc
      else
        if nd.cost + sp.pathCost nd.pt (sp.nearestFreePoint nd.pt (steer ps.ssize nd.pt qRand))
            < acc.1 then
          (nd.cost + sp.pathCost nd.pt (sp.nearestFreePoint nd.pt (steer ps.ssize nd.pt qRand)),
           some (nid,
             sp.pathCost nd.pt (sp.nearestFreePoint nd.pt (steer ps.ssize nd.pt qRand)),
             sp.nearestFreePoint nd.pt (steer ps.ssize nd.pt qRand)))
        else acc
    else
      if nd.cost + sp.pathCost nd.pt (steer ps.ssize nd.pt qRand) < acc.1 then
        (nd.cost + sp.pathCost nd.pt (steer ps.ssize nd.pt qRand),
         some (nid, sp.pathCost nd.pt (steer ps.ssize nd.pt qRand), steer ps.ssize nd.pt qRand))
      else acc

/-- The rewiring loop of `RRTstar.step`: for each neighbor of the new
node (computed once, on the tree that already contains the new node),
reparent it under the new node when the route through the new node is
finite and strictly cheaper.  `new_node.cost` is read from the current
tree at each iteration. -/
def rewireLoop (sp : Space) (qPath : Pt) (newId : ℕ) :
    List ℕ → DirectedTree → Option DirectedTree
  | [], t => some t
  | nid :: rest, t =>
    match t.lookup nid, t.lookup newId with
    | some nd, some newNd =>
      if sp.pathCost qPath nd.pt = ⊤ then rewireLoop sp qPath newId rest t
      else
        if sp.pathCost qPath nd.pt + newNd.cost < nd.cost then
          match t.reparent nid newId (sp.pathCost qPath nd.pt) with
          | none => none
          | some t2 => rewireLoop sp qPath newId rest t2
        else rewireLoop sp qPath newId rest t
    | _, _ => none

/-- Translation of `RRTstar.step` on a drawn sample `q_rand`: neighbors
within `close`, fallback to the basic step when there are none, else the
minimum-total-cost connection, goal marking, and the rewiring pass over
`near(q_path, min(ssize, close))`. -/
def rrtStarStep (sp : Space) (ps : RRTParams) (t : DirectedTree) (qRand : Pt) :
    Option (DirectedTree × Option ℕ) :=
  if t.near qRand ps.close = [] then stepTo sp ps t qRand
  else
    match ((t.near qRand ps.close).foldl (candStep sp ps qRand t) (⊤, none)).2 with
    | none => some (t, none)
    | some (nMin, cMin, qMin) =>
      match t.addNode nMin qMin cMin with
      | none => none
      | some (t1, newId) =>
        match rewireLoop sp qMin newId
            ((if sp.inGoals qMin then t1.markGoal newId else t1).near qMin
              (min ps.ssize ps.close))
            (if sp.inGoals qMin then t1.markGoal newId else t1) with
        | none => none
        | some t3 => some (t3, some newId)

/-- The planner states reachable from `DirectedTree(initial_point)` by
`RRT.step` / `RRTstar.step` calls (each consuming one sample and
completing without hitting an error branch). -/
inductive Reachable (sp : Space) (ps : RRTParams) (p0 : Pt) : DirectedTree → Prop where
  | base : Reachable sp ps p0 (mkTree p0)
  | stepBasic : ∀ {t t2 : DirectedTree} {q : Pt} {r : Option ℕ},
      Reachable sp ps p0 t → stepTo sp ps t q = some (t2, r) → Reachable sp ps p0 t2
  | stepStar : ∀ {t t2 : DirectedTree} {q : Pt} {r : Option ℕ},
      Reachable sp ps p0 t → rrtStarStep sp ps t q = some (t2, r) → Reachable sp ps p0 t2

/-- The geometric fact the planner invariants rest on: a path cost is
never negative (it is `np.inf` or a Euclidean distance). -/
def Space.CostNonneg (sp : Space) : Prop := ∀ p q : Pt, 0 ≤ sp.pathCost p q

theorem emptySpace_costNonneg (dims : Pt) (goals : List BoxGoal) :
    (EmptySpace.toSpace dims goals).CostNonneg := by
  intro p q
  show 0 ≤ emptyGetPathCost dims p q
  unfold emptyGetPathCost
  split
  · rw [show (0 : Cost) = ((0 : ℝ) : Cost) from rfl, WithTop.coe_le_coe]
    exact Real.sqrt_nonneg _
  · exact le_top

theorem wallSpace_costNonneg (dims : Pt) (goals : List BoxGoal) (walls : List Wall) :
    (WallSpace.toSpace dims goals walls).CostNonneg := by
  intro p q
  show 0 ≤ wallGetPathCost dims walls p q
  unfold wallGetPathCost
  split
  · rw [show (0 : Cost) = ((0 : ℝ) : Cost) from rfl, WithTop.coe_le_coe]
    exact Real.sqrt_nonneg _
  · exact le_top

end

/-! ### The planner invariant

`TreeInv` collects the structural facts that hold for every tree a planner
can reach: `order` lists exactly the node identifiers (without
duplicates, all below the next fresh index), the root's stored cost is
`0` and it is not a goal node, every stored cost satisfies the
parent-cost equation, and every stored edge cost is nonnegative. -/

structure TreeInv (t : DirectedTree) : Prop where
  perm : t.order.Perm t.head.ids
  nodup : t.head.ids.Nodup
  bound : ∀ i ∈ t.head.ids, i < t.order.length
  rootZero : t.head.dat.cost = 0
  costOk : CostOK t.head
  nonneg : ∀ d ∈ t.head.allData, 0 ≤ d.addCost
  rootFree : t.head.dat.goal = false

theorem inv_mkTree (p0 : Pt) : TreeInv (mkTree p0) := by
  refine ⟨?_, ?_, ?_, rfl, ?_, ?_, rfl⟩
  · show [0].Perm (RNode.ids (.node ⟨0, p0, (1 : ℝ), 0, false⟩ []))
    rw [ids_node]
    exact List.Perm.refl _
  · show (RNode.ids (.node ⟨0, p0, (1 : ℝ), 0, false⟩ [])).Nodup
    rw [ids_node]
    simp [allDataL]
  · intro i hi
    have hi2 : i ∈ RNode.ids (.node ⟨0, p0, (1 : ℝ), 0, false⟩ []) := hi
    rw [ids_node] at hi2
    simp only [allDataL, List.map_nil, List.mem_singleton] at hi2
    show i < (1 : ℕ)
    omega
  · exact costOk_iff.mpr ⟨fun c hc => absurd hc (List.not_mem_nil c),
      fun c hc => absurd hc (List.not_mem_nil c)⟩
  · intro d hd
    have hd2 : d ∈ RNode.allData (.node ⟨0, p0, (1 : ℝ), 0, false⟩ []) := hd
    rw [allData_node] at hd2
    rcases List.mem_cons.mp hd2 with rfl | hd3
    · show (0 : Cost) ≤ ((1 : ℝ) : Cost)
      rw [show (0 : Cost) = ((0 : ℝ) : Cost) from rfl, WithTop.coe_le_coe]
      norm_num
    · simp [allDataL] at hd3

/-- With unique identifiers, a lookup is characterised by membership. -/
theorem lookup_iff_mem {t : DirectedTree} (hinv : TreeInv t) {j : ℕ} {d : NodeData} :
    t.lookup j = some d ↔ d ∈ t.head.allData ∧ d.nid = j := by
  constructor
  · intro h
    exact findD_mem t.head h
  · rintro ⟨hmem, rfl⟩
    exact findD_eq_of_mem_nodup t.head hinv.nodup hmem rfl

theorem lookup_isSome_iff {t : DirectedTree} {j : ℕ} :
    (t.lookup j).isSome ↔ j ∈ t.head.ids := findD_isSome t.head j

theorem lookup_root (t : DirectedTree) : t.lookup t.head.dat.nid = some t.head.dat := by
  show t.head.findD _ = _
  cases h : t.head with
  | node d cs =>
    rw [RNode.findD]
    rw [show (RNode.node d cs).dat = d from rfl]
    rw [if_pos rfl]

/-- Every stored cost in an invariant tree is nonnegative. -/
theorem inv_cost_nonneg {t : DirectedTree} (hinv : TreeInv t) :
    ∀ d ∈ t.head.allData, 0 ≤ d.cost := by
  intro d hd
  have := costOk_le_of_mem t.head hinv.costOk hinv.nonneg d hd
  rwa [hinv.rootZero] at this

theorem head_nid_mem_ids (t : DirectedTree) : t.head.dat.nid ∈ t.head.ids :=
  mem_ids.mpr ⟨t.head.dat, dat_mem_allData _, rfl⟩

theorem mem_freeIds {t : DirectedTree} {j : ℕ} :
    j ∈ t.freeIds ↔ j ∈ t.order ∧ ∃ d, t.lookup j = some d ∧ d.goal = false := by
  unfold DirectedTree.freeIds
  rw [List.mem_filter]
  constructor
  · rintro ⟨h1, h2⟩
    refine ⟨h1, ?_⟩
    rcases h3 : t.lookup j with _ | d
    · rw [h3] at h2; cases h2
    · rw [h3] at h2
      exact ⟨d, rfl, by simpa using h2⟩
  · rintro ⟨h1, d, h2, h3⟩
    refine ⟨h1, ?_⟩
    rw [h2]
    simpa using h3

theorem mem_goalIds {t : DirectedTree} {j : ℕ} :
    j ∈ t.goalIds ↔ j ∈ t.order ∧ ∃ d, t.lookup j = some d ∧ d.goal = true := by
  unfold DirectedTree.goalIds
  rw [List.mem_filter]
  constructor
  · rintro ⟨h1, h2⟩
    refine ⟨h1, ?_⟩
    rcases h3 : t.lookup j with _ | d
    · rw [h3] at h2; cases h2
    · rw [h3] at h2
      exact ⟨d, rfl, by simpa using h2⟩
  · rintro ⟨h1, d, h2, h3⟩
    refine ⟨h1, ?_⟩
    rw [h2]
    simpa using h3

theorem freeIds_ne_nil {t : DirectedTree} (hinv : TreeInv t) : t.freeIds ≠ [] := by
  have hmem : t.head.dat.nid ∈ t.freeIds := by
    rw [mem_freeIds]
    exact ⟨(hinv.perm.mem_iff).mpr (head_nid_mem_ids t),
      t.head.dat, lookup_root t, hinv.rootFree⟩
  intro h
  rw [h] at hmem
  cases hmem

/-- The selection fold of `nearest` returns one of the scanned nodes. -/
theorem foldl_choice_mem {α : Type} (g : α → α → α)
    (hg : ∀ a b, g a b = a ∨ g a b = b) :
    ∀ (l : List α) (a : α), l.foldl g a ∈ a :: l := by
  intro l
  induction l with
  | nil => intro a; simp
  | cons x xs ih =>
    intro a
    rw [List.foldl_cons]
    rcases hg a x with h | h
    · rw [h]
      have := ih a
      rcases List.mem_cons.mp this with h2 | h2
      · rw [h2]; exact List.mem_cons_self _ _
      · exact List.mem_cons_of_mem _ (List.mem_cons_of_mem _ h2)
    · rw [h]
      have := ih x
      rcases List.mem_cons.mp this with h2 | h2
      · rw [h2]
        exact List.mem_cons_of_mem _ (List.mem_cons_self _ _)
      · exact List.mem_cons_of_mem _ (List.mem_cons_of_mem _ h2)

theorem nearest_mem {t : DirectedTree} {q : Pt} {j : ℕ} (h : t.nearest q = some j) :
    j ∈ t.freeIds := by
  unfold DirectedTree.nearest at h
  rcases h2 : t.freeIds with _ | ⟨f, rest⟩
  · rw [h2] at h; cases h
  · rw [h2] at h
    cases h
    exact foldl_choice_mem _ (fun a b => by by_cases hab : t.distTo q b < t.distTo q a
                                            · rw [if_pos hab]; right; rfl
                                            · rw [if_neg hab]; left; rfl) rest f

theorem nearest_isSome {t : DirectedTree} (hinv : TreeInv t) (q : Pt) :
    ∃ j, t.nearest q = some j := by
  unfold DirectedTree.nearest
  rcases h2 : t.freeIds with _ | ⟨f, rest⟩
  · exact absurd h2 (freeIds_ne_nil hinv)
  · exact ⟨_, rfl⟩

theorem mem_near {t : DirectedTree} {q : Pt} {r : ℝ} {j : ℕ} :
    j ∈ t.near q r → j ∈ t.freeIds := by
  intro h
  unfold DirectedTree.near at h
  exact (List.mem_filter.mp h).1

/-! ### Projection helpers and detach characterisation -/

theorem stripC_pt {a b : NodeData} (h : stripC a = stripC b) : a.pt = b.pt := by
  simpa [stripC] using congrArg (fun x => x.2.1) h

theorem stripC_addCost {a b : NodeData} (h : stripC a = stripC b) : a.addCost = b.addCost := by
  simpa [stripC] using congrArg (fun x => x.2.2.1) h

theorem stripC_goal {a b : NodeData} (h : stripC a = stripC b) : a.goal = b.goal := by
  simpa [stripC] using congrArg (fun x => x.2.2.2) h

theorem detachN_isSome (t : RNode) (i : ℕ) :
    ((t.detachN i).2).isSome ↔ ∃ c ∈ t.kids, i ∈ c.ids := by
  cases t with
  | node d cs => exact detachL_isSome cs i

theorem mem_ids_cases {t : RNode} {i : ℕ} (h : i ∈ t.ids) (hne : t.dat.nid ≠ i) :
    ∃ c ∈ t.kids, i ∈ c.ids := by
  cases t with
  | node d cs =>
    rw [ids_node] at h
    rcases List.mem_cons.mp h with rfl | h2
    · exact absurd rfl hne
    · exact mem_idsL.mp h2

/-! ### Effect of `add_node` on the invariant -/

theorem addNode_inv {t : DirectedTree} (hinv : TreeInv t) {p : ℕ} {q : Pt} {ac : Cost}
    {pd : NodeData} (hp : t.lookup p = some pd) (hac : 0 ≤ ac) :
    ∃ t2, t.addNode p q ac = some (t2, t.order.length) ∧ TreeInv t2 ∧
      t2.order = t.order ++ [t.order.length] ∧
      (∀ j, (t.lookup j).isSome → t2.lookup j = t.lookup j) ∧
      t2.lookup t.order.length = some ⟨t.order.length, q, ac, pd.cost + ac, false⟩ ∧
      t2.head.dat = t.head.dat := by
  have hnewd : (⟨t.order.length, q, ac, pd.cost + ac, false⟩ : NodeData) ∈
      RNode.allData (.node ⟨t.order.length, q, ac, pd.cost + ac, false⟩ []) :=
    dat_mem_allData _
  have hflag : (t.head.insN p (.node ⟨t.order.length, q, ac, pd.cost + ac, false⟩ [])).2
      = true := by
    rw [insN_isSome]
    show (t.lookup p).isSome
    rw [hp]
    rfl
  have hperm := insN_perm t.head p (.node ⟨t.order.length, q, ac, pd.cost + ac, false⟩ []) hflag
  have hsingle : RNode.allData (.node ⟨t.order.length, q, ac, pd.cost + ac, false⟩ [])
      = [⟨t.order.length, q, ac, pd.cost + ac, false⟩] := by
    rw [allData_node]
    rfl
  rw [hsingle] at hperm
  have hfresh : t.order.length ∉ t.head.ids := fun hmem =>
    lt_irrefl _ (hinv.bound _ hmem)
  have hids2 : (RNode.ids (t.head.insN p
      (.node ⟨t.order.length, q, ac, pd.cost + ac, false⟩ [])).1).Perm
      (t.head.ids ++ [t.order.length]) := by
    have := hperm.map NodeData.nid
    rw [List.map_append] at this
    exact this
  have hnodup2 : (RNode.ids (t.head.insN p
      (.node ⟨t.order.length, q, ac, pd.cost + ac, false⟩ [])).1).Nodup := by
    rw [hids2.nodup_iff, List.nodup_append]
    refine ⟨hinv.nodup, List.nodup_singleton _, ?_⟩
    intro a ha hb
    rw [List.mem_singleton] at hb
    exact hfresh (hb ▸ ha)
  refine ⟨⟨(t.head.insN p (.node ⟨t.order.length, q, ac, pd.cost + ac, false⟩ [])).1,
    t.order ++ [t.order.length]⟩, ?_, ?_, rfl, ?_, ?_, insN_dat t.head p _⟩
  · show DirectedTree.addNode t p q ac = _
    unfold DirectedTree.addNode
    rw [hp]
  · refine ⟨?_, ?_, ?_, ?_, ?_, ?_, ?_⟩
    · exact (hinv.perm.append (List.Perm.refl [t.order.length])).trans hids2.symm
    · exact hnodup2
    · intro i hi
      have := hids2.mem_iff.mp hi
      rw [List.length_append, List.length_singleton]
      rcases List.mem_append.mp this with h | h
      · have := hinv.bound i h
        omega
      · rw [List.mem_singleton] at h
        omega
    · rw [insN_dat]
      exact hinv.rootZero
    · refine insN_costOk t.head _ hinv.costOk hp rfl ?_
      exact costOk_iff.mpr ⟨fun c hc => absurd hc (List.not_mem_nil c),
        fun c hc => absurd hc (List.not_mem_nil c)⟩
    · intro d hd
      have := hperm.mem_iff.mp hd
      rcases List.mem_append.mp this with h | h
      · exact hinv.nonneg d h
      · rw [List.mem_singleton] at h
        rw [h]
        exact hac
    · rw [insN_dat]
      exact hinv.rootFree
  · intro j hj
    rcases hlk : t.lookup j with _ | d
    · rw [hlk] at hj; cases hj
    · rcases findD_mem t.head hlk with ⟨hmem, hnid⟩
      show RNode.findD _ j = _
      refine findD_eq_of_mem_nodup _ hnodup2 ?_ hnid
      exact hperm.mem_iff.mpr (List.mem_append.mpr (Or.inl hmem))
  · show RNode.findD _ _ = _
    refine findD_eq_of_mem_nodup _ hnodup2 ?_ rfl
    exact hperm.mem_iff.mpr (List.mem_append.mpr (Or.inr (List.mem_singleton.mpr rfl)))

/-! ### Effect of `mark_goal` on the invariant -/

theorem markGoal_inv {t : DirectedTree} (hinv : TreeInv t) {i : ℕ}
    (hne : t.head.dat.nid ≠ i) :
    TreeInv (t.markGoal i) ∧ (t.markGoal i).order = t.order ∧
      (∀ j, ¬ i = j → (t.markGoal i).lookup j = t.lookup j) ∧
      (t.markGoal i).lookup i = (t.lookup i).map (fun d => { d with goal := true }) := by
  have hnid : ∀ d : NodeData, ({ d with goal := true } : NodeData).nid = d.nid := fun _ => rfl
  have hids : (RNode.ids (t.head.mapD i (fun d => { d with goal := true })).1) = t.head.ids := by
    show ((t.head.mapD i (fun d => { d with goal := true })).1.allData).map NodeData.nid = _
    exact mapD_map_proj NodeData.nid _ hnid t.head i
  refine ⟨⟨?_, ?_, ?_, ?_, ?_, ?_, ?_⟩, rfl, ?_, ?_⟩
  · show t.order.Perm (RNode.ids (t.head.mapD i (fun d => { d with goal := true })).1)
    rw [hids]
    exact hinv.perm
  · show (RNode.ids (t.head.mapD i (fun d => { d with goal := true })).1).Nodup
    rw [hids]
    exact hinv.nodup
  · show ∀ j ∈ RNode.ids (t.head.mapD i (fun d => { d with goal := true })).1,
      j < t.order.length
    rw [hids]
    exact hinv.bound
  · show ((t.head.mapD i (fun d => { d with goal := true })).1.dat).cost = 0
    rw [mapD_dat, if_neg hne]
    exact hinv.rootZero
  · show CostOK (t.head.mapD i (fun d => { d with goal := true })).1
    exact mapD_costOk (fun d => { d with goal := true }) (fun _ => rfl) (fun _ => rfl)
      t.head i hinv.costOk
  · show ∀ d ∈ ((t.head.mapD i (fun d => { d with goal := true })).1).allData, 0 ≤ d.addCost
    intro d hd
    have hmap := mapD_map_proj NodeData.addCost (fun d => { d with goal := true })
      (fun _ => rfl) t.head i
    have hmem : d.addCost ∈ ((t.head.mapD i (fun d => { d with goal := true })).1.allData).map
        NodeData.addCost := List.mem_map.mpr ⟨d, hd, rfl⟩
    rw [hmap] at hmem
    rcases List.mem_map.mp hmem with ⟨d2, hd2, he⟩
    rw [← he]
    exact hinv.nonneg d2 hd2
  · show ((t.head.mapD i (fun d => { d with goal := true })).1.dat).goal = false
    rw [mapD_dat, if_neg hne]
    exact hinv.rootFree
  · intro j hj
    show ((t.head.mapD i (fun d => { d with goal := true })).1).findD j = t.lookup j
    rw [mapD_findD _ hnid t.head i j, if_neg hj]
    rfl
  · show ((t.head.mapD i (fun d => { d with goal := true })).1).findD i = _
    rw [mapD_findD _ hnid t.head i i, if_pos rfl]
    rfl

/-! ### Step-to-step relations between trees -/

/-- After an operation that only rewires and recosts, every surviving
node keeps its identity, position and goal flag, and its stored cost
does not increase. -/
def CostsLe (t2 t : DirectedTree) : Prop :=
  t2.order = t.order ∧
    (∀ j, (t2.lookup j).isSome ↔ (t.lookup j).isSome) ∧
    ∀ j d2, t2.lookup j = some d2 →
      ∃ d, t.lookup j = some d ∧ d2.nid = d.nid ∧ d2.pt = d.pt ∧
        d2.goal = d.goal ∧ d2.cost ≤ d.cost

theorem costsLe_refl (t : DirectedTree) : CostsLe t t :=
  ⟨rfl, fun _ => Iff.rfl, fun _ d2 h => ⟨d2, h, rfl, rfl, rfl, le_refl _⟩⟩

theorem costsLe_trans {t3 t2 t : DirectedTree} (h32 : CostsLe t3 t2) (h21 : CostsLe t2 t) :
    CostsLe t3 t := by
  refine ⟨h32.1.trans h21.1, fun j => (h32.2.1 j).trans (h21.2.1 j), ?_⟩
  intro j d3 h3
  rcases h32.2.2 j d3 h3 with ⟨d2, h2, e1, e2, e3, hle⟩
  rcases h21.2.2 j d2 h2 with ⟨d1, h1, f1, f2, f3, hle2⟩
  exact ⟨d1, h1, e1.trans f1, e2.trans f2, e3.trans f3, le_trans hle hle2⟩

/-- What `get_shortest_path` monotonicity needs from one internal
mutation: every goal node of the older tree is still a goal node, with
a stored cost that has not increased. -/
def GoalMono (t2 t : DirectedTree) : Prop :=
  ∀ j ∈ t.goalIds, j ∈ t2.goalIds ∧ t2.costOf j ≤ t.costOf j

theorem goalMono_refl (t : DirectedTree) : GoalMono t t :=
  fun _ hj => ⟨hj, le_refl _⟩

theorem goalMono_trans {t3 t2 t : DirectedTree} (h32 : GoalMono t3 t2) (h21 : GoalMono t2 t) :
    GoalMono t3 t := by
  intro j hj
  rcases h21 j hj with ⟨h1, h2⟩
  rcases h32 j h1 with ⟨h3, h4⟩
  exact ⟨h3, le_trans h4 h2⟩

theorem goalMono_of_costsLe {t2 t : DirectedTree} (h : CostsLe t2 t) : GoalMono t2 t := by
  intro j hj
  rcases mem_goalIds.mp hj with ⟨hord, d, hlk, hgoal⟩
  have hsome : (t2.lookup j).isSome := (h.2.1 j).mpr (by rw [hlk]; rfl)
  rcases h2 : t2.lookup j with _ | d2
  · rw [h2] at hsome; cases hsome
  · rcases h.2.2 j d2 h2 with ⟨d1, h1, e1, e2, e3, hle⟩
    rw [hlk] at h1
    cases h1
    constructor
    · rw [mem_goalIds]
      exact ⟨h.1 ▸ hord, d2, h2, e3.trans hgoal⟩
    · show (t2.lookup j).elim ⊤ NodeData.cost ≤ (t.lookup j).elim ⊤ NodeData.cost
      rw [h2, hlk]
      exact hle

/-! ### Effect of a guarded `reparent` on the invariant

The rewiring loop only calls `reparent(node, new_node, cost_new)` under
the strict guard `cost_new + new_node.cost < node.cost`.  With
nonnegative edge costs this guard rules out reparenting the root and
reparenting under a descendant, so the Python error/corruption branches
are unreachable, every identifier survives, and no stored cost
increases. -/

theorem reparent_inv {t : DirectedTree} (hinv : TreeInv t) {i p : ℕ} {nc : Cost}
    {nd pd : NodeData} (hi : t.lookup i = some nd) (hp : t.lookup p = some pd)
    (hg : nc + pd.cost < nd.cost) (hnc : 0 ≤ nc) :
    ∃ t2, t.reparent i p nc = some t2 ∧ TreeInv t2 ∧ CostsLe t2 t := by
  have hpd_nn : 0 ≤ pd.cost := inv_cost_nonneg hinv pd (findD_mem t.head hp).1
  have hroot_ne : t.head.dat.nid ≠ i := by
    intro he
    have hlr : t.lookup i = some t.head.dat := he ▸ lookup_root t
    rw [hi] at hlr
    injection hlr with hnd
    rw [hnd, hinv.rootZero] at hg
    exact absurd hg (not_lt.mpr (add_nonneg hnc hpd_nn))
  have himem : i ∈ t.head.ids := by
    rw [← lookup_isSome_iff, hi]
    rfl
  have hdet_s : ((t.head.detachN i).2).isSome :=
    (detachN_isSome t.head i).mpr (mem_ids_cases himem hroot_ne)
  rcases hdet : (t.head.detachN i).2 with _ | sub
  · rw [hdet] at hdet_s; cases hdet_s
  cases sub with
  | node ds css =>
  have hds := detachN_some hdet
  have hperm0 := hds.1
  have hsnid : ds.nid = i := hds.2
  have hpermids : t.head.ids.Perm
      ((t.head.detachN i).1.ids ++ (RNode.node ds css).ids) := by
    have h1 := hperm0.map NodeData.nid
    rw [List.map_append] at h1
    exact h1
  have hnodup0 : ((t.head.detachN i).1.ids ++ (RNode.node ds css).ids).Nodup :=
    hpermids.nodup_iff.mp hinv.nodup
  have hnodup_rem : ((t.head.detachN i).1.ids).Nodup := List.Nodup.of_append_left hnodup0
  have hsub_mem : ds ∈ t.head.allData :=
    hperm0.symm.subset (List.mem_append.mpr (Or.inr (dat_mem_allData (.node ds css))))
  have hsub_dat : ds = nd := by
    have hlk : t.lookup i = some ds := (lookup_iff_mem hinv).mpr ⟨hsub_mem, hsnid⟩
    rw [hi] at hlk
    injection hlk with h
    exact h.symm
  have hsub_nonneg : ∀ d ∈ (RNode.node ds css).allData, 0 ≤ d.addCost := fun d hd =>
    hinv.nonneg d (hperm0.symm.subset (List.mem_append.mpr (Or.inr hd)))
  have hsub_ok : CostOK (.node ds css) := (detachN_costOk t.head hinv.costOk).2 _ hdet
  have hrem_ok : CostOK (t.head.detachN i).1 := (detachN_costOk t.head hinv.costOk).1
  have hpd_rem : pd ∈ (t.head.detachN i).1.allData := by
    have hpd_mem : pd ∈ t.head.allData := (findD_mem t.head hp).1
    rcases List.mem_append.mp (hperm0.subset hpd_mem) with h | h
    · exact h
    · exfalso
      have hle : (RNode.node ds css).dat.cost ≤ pd.cost :=
        costOk_le_of_mem _ hsub_ok hsub_nonneg pd h
      have hle2 : ds.cost ≤ pd.cost := hle
      rw [hsub_dat] at hle2
      exact absurd hg (not_lt.mpr (le_trans hle2 (le_add_of_nonneg_left hnc)))
  have hfrem : ((t.head.detachN i).1).findD p = some pd :=
    findD_eq_of_mem_nodup _ hnodup_rem hpd_rem (findD_mem t.head hp).2
  -- the recosted subtree and insertion facts
  have hsub2_ok : CostOK (RNode.node { ds with addCost := nc } css) := by
    rcases costOk_iff.mp hsub_ok with ⟨h1, h2⟩
    exact costOk_iff.mpr ⟨fun c hc => h1 c hc, h2⟩
  have hflag2 : (((t.head.detachN i).1).insN p
      ((RNode.node { ds with addCost := nc } css).recostSub pd.cost)).2 = true := by
    rw [insN_isSome, hfrem]
    rfl
  have hperm2 := insN_perm _ p _ hflag2
  have hids_r : ((RNode.node { ds with addCost := nc } css).recostSub pd.cost).ids
      = (RNode.node ds css).ids := by
    rw [recost_ids, ids_node, ids_node]
  have hperm_ids2 : (RNode.ids (((t.head.detachN i).1).insN p
      ((RNode.node { ds with addCost := nc } css).recostSub pd.cost)).1).Perm
      t.head.ids := by
    have h1 := hperm2.map NodeData.nid
    rw [List.map_append] at h1
    have h2 : (RNode.ids (((t.head.detachN i).1).insN p
        ((RNode.node { ds with addCost := nc } css).recostSub pd.cost)).1).Perm
        ((t.head.detachN i).1.ids ++ (RNode.node ds css).ids) := by
      rw [← hids_r]
      exact h1
    exact h2.trans hpermids.symm
  have hsub2_mem : ∀ d3 ∈ (RNode.node { ds with addCost := nc } css).allData,
      (d3 = { ds with addCost := nc } ∨ d3 ∈ (RNode.node ds css).allData) := by
    intro d3 hd3
    rw [allData_node, List.mem_cons] at hd3
    rcases hd3 with rfl | hd3
    · exact Or.inl rfl
    · right
      rw [allData_node]
      exact List.mem_cons_of_mem _ hd3
  have hguard_le : pd.cost + (RNode.node { ds with addCost := nc } css).dat.addCost
      ≤ (RNode.node { ds with addCost := nc } css).dat.cost := by
    show pd.cost + nc ≤ ds.cost
    rw [hsub_dat, add_comm]
    exact le_of_lt hg
  have hrle := recost_le_mem (RNode.node { ds with addCost := nc } css) pd.cost
    hsub2_ok hguard_le
  refine ⟨⟨(((t.head.detachN i).1).insN p
      ((RNode.node { ds with addCost := nc } css).recostSub pd.cost)).1, t.order⟩, ?_, ?_, ?_⟩
  · show DirectedTree.reparent t i p nc = _
    unfold DirectedTree.reparent
    rw [hdet]
    simp only [hfrem]
    rfl
  · refine ⟨?_, ?_, ?_, ?_, ?_, ?_, ?_⟩
    · exact hinv.perm.trans hperm_ids2.symm
    · exact hperm_ids2.nodup_iff.mpr hinv.nodup
    · intro j hj
      exact hinv.bound j (hperm_ids2.subset hj)
    · show ((((t.head.detachN i).1).insN p _).1.dat).cost = 0
      rw [insN_dat, detachN_dat]
      exact hinv.rootZero
    · refine insN_costOk _ _ hrem_ok hfrem ?_ (recost_costOk _ _)
      simp [recost_dat]
    · intro d2 hd2
      rcases List.mem_append.mp (hperm2.subset hd2) with h | h
      · exact hinv.nonneg d2 (hperm0.symm.subset (List.mem_append.mpr (Or.inl h)))
      · have : stripC d2 ∈ (((RNode.node { ds with addCost := nc } css).recostSub
            pd.cost).allData).map stripC := List.mem_map.mpr ⟨d2, h, rfl⟩
        rw [recost_strip] at this
        rcases List.mem_map.mp this with ⟨d3, hd3, he⟩
        rw [← stripC_addCost he]
        rcases hsub2_mem d3 hd3 with rfl | hd3m
        · exact hnc
        · exact hsub_nonneg d3 hd3m
    · show ((((t.head.detachN i).1).insN p _).1.dat).goal = false
      rw [insN_dat, detachN_dat]
      exact hinv.rootFree
  · refine ⟨rfl, ?_, ?_⟩
    · intro j
      rw [lookup_isSome_iff, lookup_isSome_iff]
      exact ⟨fun h => hperm_ids2.subset h, fun h => hperm_ids2.symm.subset h⟩
    · intro j d2 hlk2
      rcases findD_mem _ hlk2 with ⟨hd2mem, hd2nid⟩
      rcases List.mem_append.mp (hperm2.subset hd2mem) with h | h
      · -- untouched part of the tree
        have : t.lookup j = some d2 := (lookup_iff_mem hinv).mpr
          ⟨hperm0.symm.subset (List.mem_append.mpr (Or.inl h)), hd2nid⟩
        exact ⟨d2, this, rfl, rfl, rfl, le_refl _⟩
      · -- recosted part: costs only went down
        rcases hrle d2 h with ⟨d3, hd3, hs3, hc3⟩
        rcases hsub2_mem d3 hd3 with rfl | hd3m
        · -- the reparented node itself
          refine ⟨nd, ?_, ?_, ?_, ?_, ?_⟩
          · rw [← hd2nid, stripC_nid hs3]
            show t.lookup ds.nid = some nd
            rw [hsnid]
            exact hi
          · rw [stripC_nid hs3, ← hsub_dat]
          · rw [stripC_pt hs3, ← hsub_dat]
          · rw [stripC_goal hs3, ← hsub_dat]
          · rw [← hsub_dat]
            exact hc3
        · -- a strict descendant of the reparented node
          refine ⟨d3, ?_, stripC_nid hs3, stripC_pt hs3, stripC_goal hs3, hc3⟩
          rw [← hd2nid, stripC_nid hs3]
          exact (lookup_iff_mem hinv).mpr
            ⟨hperm0.symm.subset (List.mem_append.mpr (Or.inr hd3m)), rfl⟩

theorem costsLe_mem_ids {t2 t : DirectedTree} (h : CostsLe t2 t) (j : ℕ) :
    j ∈ t2.head.ids ↔ j ∈ t.head.ids := by
  rw [← lookup_isSome_iff, ← lookup_isSome_iff]
  exact h.2.1 j

theorem near_subset_ids {t : DirectedTree} (hinv : TreeInv t) {q : Pt} {r : ℝ} {n : ℕ}
    (h : n ∈ t.near q r) : n ∈ t.head.ids :=
  hinv.perm.subset (mem_freeIds.mp (mem_near h)).1

/-! ### The rewiring loop preserves the invariant and never errors -/

theorem rewireLoop_inv {sp : Space} (hsp : sp.CostNonneg) (qPath : Pt) (newId : ℕ) :
    ∀ (nbrs : List ℕ) (t : DirectedTree), TreeInv t →
    newId ∈ t.head.ids → (∀ n ∈ nbrs, n ∈ t.head.ids) →
    ∃ t3, rewireLoop sp qPath newId nbrs t = some t3 ∧ TreeInv t3 ∧ CostsLe t3 t := by
  intro nbrs
  induction nbrs with
  | nil =>
    intro t hinv _ _
    exact ⟨t, rfl, hinv, costsLe_refl t⟩
  | cons n rest ih =>
    intro t hinv hnew hmem
    have hn_s : (t.lookup n).isSome := lookup_isSome_iff.mpr (hmem n (List.mem_cons_self _ _))
    have hw_s : (t.lookup newId).isSome := lookup_isSome_iff.mpr hnew
    rcases hlkn : t.lookup n with _ | nd
    · rw [hlkn] at hn_s; cases hn_s
    rcases hlkw : t.lookup newId with _ | newNd
    · rw [hlkw] at hw_s; cases hw_s
    rw [rewireLoop]
    simp only [hlkn, hlkw]
    by_cases htop : sp.pathCost qPath nd.pt = ⊤
    · rw [if_pos htop]
      exact ih t hinv hnew (fun m hm => hmem m (List.mem_cons_of_mem _ hm))
    · rw [if_neg htop]
      by_cases hlt : sp.pathCost qPath nd.pt + newNd.cost < nd.cost
      · rw [if_pos hlt]
        rcases reparent_inv hinv hlkn hlkw hlt (hsp qPath nd.pt) with ⟨t2, hrep, hinv2, hle2⟩
        simp only [hrep]
        rcases ih t2 hinv2 ((costsLe_mem_ids hle2 newId).mpr hnew)
          (fun m hm => (costsLe_mem_ids hle2 m).mpr (hmem m (List.mem_cons_of_mem _ hm)))
          with ⟨t3, hloop, hinv3, hle3⟩
        exact ⟨t3, hloop, hinv3, costsLe_trans hle3 hle2⟩
      · rw [if_neg hlt]
        exact ih t hinv hnew (fun m hm => hmem m (List.mem_cons_of_mem _ hm))

/-! ### The neighborhood-minimum fold -/

theorem candFold_spec {sp : Space} (hsp : sp.CostNonneg) (ps : RRTParams) (qRand : Pt)
    (t : DirectedTree) (l0 : List ℕ) :
    ∀ (l : List ℕ) (acc : Cost × Option (ℕ × Cost × Pt)),
    (∀ x ∈ l, x ∈ l0) →
    (∀ n c q, acc.2 = some (n, c, q) → n ∈ l0 ∧ 0 ≤ c) →
    ∀ n c q, (l.foldl (candStep sp ps qRand t) acc).2 = some (n, c, q) → n ∈ l0 ∧ 0 ≤ c := by
  intro l
  induction l with
  | nil =>
    intro acc _ hacc
    exact hacc
  | cons x xs ih =>
    intro acc hsub hacc
    rw [List.foldl_cons]
    refine ih _ (fun y hy => hsub y (List.mem_cons_of_mem _ hy)) ?_
    intro n c q h
    unfold candStep at h
    split at h
    · exact hacc n c q h
    · split_ifs at h
      · exact hacc n c q h
      · simp only [Option.some.injEq, Prod.mk.injEq] at h
        obtain ⟨rfl, rfl, rfl⟩ := h
        exact ⟨hsub x (List.mem_cons_self _ _), hsp _ _⟩
      · exact hacc n c q h
      · simp only [Option.some.injEq, Prod.mk.injEq] at h
        obtain ⟨rfl, rfl, rfl⟩ := h
        exact ⟨hsub x (List.mem_cons_self _ _), hsp _ _⟩
      · exact hacc n c q h

/-! ### One planner step preserves the invariant and never errors -/

theorem goalMono_addNode {t t1 : DirectedTree} (hord : t1.order = t.order ++ [t.order.length])
    (hpres : ∀ j, (t.lookup j).isSome → t1.lookup j = t.lookup j) : GoalMono t1 t := by
  intro j hj
  rcases mem_goalIds.mp hj with ⟨ho, d, hlk, hgl⟩
  have hpj := hpres j (by rw [hlk]; rfl)
  constructor
  · rw [mem_goalIds]
    refine ⟨?_, d, by rw [hpj]; exact hlk, hgl⟩
    rw [hord]
    exact List.mem_append.mpr (Or.inl ho)
  · show (t1.lookup j).elim ⊤ NodeData.cost ≤ (t.lookup j).elim ⊤ NodeData.cost
    rw [hpj]

theorem finishStep_inv {sp : Space} {t : DirectedTree} (hinv : TreeInv t) {nId : ℕ}
    {nd : NodeData} (hlk : t.lookup nId = some nd) (q : Pt) {c : Cost} (hc : 0 ≤ c) :
    ∃ t2, finishStep sp t nId q c = some (t2, some t.order.length) ∧ TreeInv t2 ∧
      GoalMono t2 t := by
  rcases addNode_inv hinv hlk hc (q := q) with ⟨t1, hadd, hinv1, hord1, hpres1, hlknew, hdat1⟩
  unfold finishStep
  simp only [hadd]
  by_cases hg : sp.inGoals q = true
  · rw [if_pos hg]
    have hrne : t1.head.dat.nid ≠ t.order.length := by
      rw [hdat1]
      intro he
      exact lt_irrefl _ (hinv.bound _ (he ▸ head_nid_mem_ids t))
    rcases markGoal_inv hinv1 hrne with ⟨hinv2, hord2, hpres2, hlkm⟩
    refine ⟨t1.markGoal t.order.length, rfl, hinv2, ?_⟩
    refine goalMono_trans ?_ (goalMono_addNode hord1 hpres1)
    -- marking a non-goal node preserves all goal nodes and all costs
    intro j hj
    rcases mem_goalIds.mp hj with ⟨ho, d, hlkj, hgl⟩
    have hjne : ¬ t.order.length = j := by
      intro he
      rw [← he, hlknew] at hlkj
      injection hlkj with h2
      rw [← h2] at hgl
      cases hgl
    have hpj := hpres2 j hjne
    constructor
    · rw [mem_goalIds]
      exact ⟨hord2 ▸ ho, d, by rw [hpj]; exact hlkj, hgl⟩
    · show ((t1.markGoal t.order.length).lookup j).elim ⊤ NodeData.cost
        ≤ (t1.lookup j).elim ⊤ NodeData.cost
      rw [hpj]
  · rw [if_neg hg]
    exact ⟨t1, rfl, hinv1, goalMono_addNode hord1 hpres1⟩

theorem stepTo_inv {sp : Space} (hsp : sp.CostNonneg) (ps : RRTParams)
    {t : DirectedTree} (hinv : TreeInv t) (qRand : Pt) :
    ∃ t2 r, stepTo sp ps t qRand = some (t2, r) ∧ TreeInv t2 ∧ GoalMono t2 t := by
  rcases nearest_isSome hinv qRand with ⟨j, hnear⟩
  have hj_ids : j ∈ t.head.ids := hinv.perm.subset (mem_freeIds.mp (nearest_mem hnear)).1
  have hj_s : (t.lookup j).isSome := lookup_isSome_iff.mpr hj_ids
  rcases hlk : t.lookup j with _ | nd
  · rw [hlk] at hj_s; cases hj_s
  unfold stepTo
  simp only [hnear, hlk]
  by_cases htop : sp.pathCost nd.pt (steer ps.ssize nd.pt qRand) = ⊤
  · rw [if_pos htop]
    by_cases htol :
        norm2 (nd.pt - sp.nearestFreePoint nd.pt (steer ps.ssize nd.pt qRand)) < ps.tol
    · rw [if_pos htol]
      exact ⟨t, none, rfl, hinv, goalMono_refl t⟩
    · rw [if_neg htol]
      rcases finishStep_inv hinv hlk
        (sp.nearestFreePoint nd.pt (steer ps.ssize nd.pt qRand)) (hsp _ _)
        with ⟨t2, hfin, hinv2, hmono⟩
      exact ⟨t2, some t.order.length, by rw [hfin], hinv2, hmono⟩
  · rw [if_neg htop]
    rcases finishStep_inv hinv hlk (steer ps.ssize nd.pt qRand) (hsp _ _)
      with ⟨t2, hfin, hinv2, hmono⟩
    exact ⟨t2, some t.order.length, by rw [hfin], hinv2, hmono⟩

theorem starStep_inv {sp : Space} (hsp : sp.CostNonneg) (ps : RRTParams)
    {t : DirectedTree} (hinv : TreeInv t) (qRand : Pt) :
    ∃ t2 r, rrtStarStep sp ps t qRand = some (t2, r) ∧ TreeInv t2 ∧ GoalMono t2 t := by
  unfold rrtStarStep
  by_cases hne : t.near qRand ps.close = []
  · rw [if_pos hne]
    exact stepTo_inv hsp ps hinv qRand
  · rw [if_neg hne]
    rcases hbest : ((t.near qRand ps.close).foldl (candStep sp ps qRand t) (⊤, none)).2
      with _ | ⟨nMin, cMin, qMin⟩
    · simp only [hbest]
      exact ⟨t, none, rfl, hinv, goalMono_refl t⟩
    · simp only [hbest]
      obtain ⟨hmem_min, hc_min⟩ := candFold_spec hsp ps qRand t (t.near qRand ps.close)
        (t.near qRand ps.close) (⊤, none) (fun x hx => hx)
        (fun n c q h => by cases h) nMin cMin qMin hbest
      have hm_ids : nMin ∈ t.head.ids := near_subset_ids hinv hmem_min
      have hm_s : (t.lookup nMin).isSome := lookup_isSome_iff.mpr hm_ids
      rcases hlkm : t.lookup nMin with _ | nd
      · rw [hlkm] at hm_s; cases hm_s
      rcases addNode_inv hinv hlkm hc_min (q := qMin)
        with ⟨t1, hadd, hinv1, hord1, hpres1, hlknew, hdat1⟩
      simp only [hadd]
      have hrne : t1.head.dat.nid ≠ t.order.length := by
        rw [hdat1]
        intro he
        exact lt_irrefl _ (hinv.bound _ (he ▸ head_nid_mem_ids t))
      -- the tree on which the rewiring list is computed
      by_cases hg : sp.inGoals qMin = true
      · rw [if_pos hg]
        rcases markGoal_inv hinv1 hrne with ⟨hinv2, hord2, hpres2, hlkm2⟩
        have hnew2 : t.order.length ∈ (t1.markGoal t.order.length).head.ids := by
          rw [← lookup_isSome_iff, hlkm2, hlknew]
          rfl
        rcases rewireLoop_inv hsp qMin t.order.length
            ((t1.markGoal t.order.length).near qMin (min ps.ssize ps.close))
            (t1.markGoal t.order.length) hinv2 hnew2
            (fun n hn => near_subset_ids hinv2 hn)
          with ⟨t3, hloop, hinv3, hle3⟩
        simp only [hloop]
        refine ⟨t3, some t.order.length, rfl, hinv3, ?_⟩
        refine goalMono_trans (goalMono_of_costsLe hle3) ?_
        refine goalMono_trans ?_ (goalMono_addNode hord1 hpres1)
        intro j hj
        rcases mem_goalIds.mp hj with ⟨ho, d, hlkj, hgl⟩
        have hjne : ¬ t.order.length = j := by
          intro he
          rw [← he, hlknew] at hlkj
          injection hlkj with h2
          rw [← h2] at hgl
          cases hgl
        have hpj := hpres2 j hjne
        constructor
        · rw [mem_goalIds]
          exact ⟨hord2 ▸ ho, d, by rw [hpj]; exact hlkj, hgl⟩
        · show ((t1.markGoal t.order.length).lookup j).elim ⊤ NodeData.cost
            ≤ (t1.lookup j).elim ⊤ NodeData.cost
          rw [hpj]
      · rw [if_neg hg]
        have hnew1 : t.order.length ∈ t1.head.ids := by
          rw [← lookup_isSome_iff, hlknew]
          rfl
        rcases rewireLoop_inv hsp qMin t.order.length
            (t1.near qMin (min ps.ssize ps.close)) t1 hinv1 hnew1
            (fun n hn => near_subset_ids hinv1 hn)
          with ⟨t3, hloop, hinv3, hle3⟩
        simp only [hloop]
        exact ⟨t3, some t.order.length, rfl, hinv3,
          goalMono_trans (goalMono_of_costsLe hle3) (goalMono_addNode hord1 hpres1)⟩

/-! ### Every reachable planner state satisfies the invariant -/

theorem reachable_inv {sp : Space} (hsp : sp.CostNonneg) {ps : RRTParams} {p0 : Pt}
    {t : DirectedTree} (h : Reachable sp ps p0 t) : TreeInv t := by
  induction h with
  | base => exact inv_mkTree p0
  | stepBasic hr hstep ih =>
    rcases stepTo_inv hsp _ ih _ with ⟨t2, r2, heq, hinv2, _⟩
    rw [heq] at hstep
    injection hstep with h2
    injection h2 with h3 h4
    exact h3 ▸ hinv2
  | stepStar hr hstep ih =>
    rcases starStep_inv hsp _ ih _ with ⟨t2, r2, heq, hinv2, _⟩
    rw [heq] at hstep
    injection hstep with h2
    injection h2 with h3 h4
    exact h3 ▸ hinv2

/-! ### Small evaluation and minimum-fold helpers -/

theorem norm2_eq {v : Pt} {c : ℝ} (h : v.1 ^ 2 + v.2 ^ 2 = c ^ 2) (hc : 0 ≤ c) :
    norm2 v = c := by
  rw [norm2, h, Real.sqrt_sq hc]

theorem foldr_min_le : ∀ {l : List Cost} {x : Cost}, x ∈ l → l.foldr min ⊤ ≤ x := by
  intro l
  induction l with
  | nil => intro x hx; cases hx
  | cons a as ih =>
    intro x hx
    rw [List.foldr_cons]
    rcases List.mem_cons.mp hx with rfl | hx2
    · exact min_le_left _ _
    · exact le_trans (min_le_right _ _) (ih hx2)

theorem foldr_min_cases : ∀ l : List Cost, l.foldr min ⊤ = ⊤ ∨ l.foldr min ⊤ ∈ l := by
  intro l
  induction l with
  | nil => exact Or.inl rfl
  | cons a as ih =>
    rw [List.foldr_cons]
    rcases le_total a (as.foldr min ⊤) with h | h
    · rw [min_eq_left h]
      exact Or.inr (List.mem_cons_self _ _)
    · rw [min_eq_right h]
      rcases ih with h2 | h2
      · exact Or.inl h2
      · exact Or.inr (List.mem_cons_of_mem _ h2)

theorem shortestCost_mono {t2 t : DirectedTree} (h : GoalMono t2 t) :
    t2.shortestCost ≤ t.shortestCost := by
  rcases foldr_min_cases (t.goalIds.map t.costOf) with hc | hc
  · show t2.shortestCost ≤ (t.goalIds.map t.costOf).foldr min ⊤
    rw [hc]
    exact le_top
  · rcases List.mem_map.mp hc with ⟨j, hj, he⟩
    rcases h j hj with ⟨hj2, hle⟩
    calc t2.shortestCost ≤ t2.costOf j := foldr_min_le (List.mem_map.mpr ⟨j, hj2, rfl⟩)
      _ ≤ t.costOf j := hle
      _ = t.shortestCost := he

/-! ### Externally scripted tree operations (for the `DirectedTree` claims) -/

/-- A scripted `DirectedTree` mutation: `add_node(parent, pt, add_cost)`
or `node.reparent(new_parent, new_cost)`. -/
inductive TreeOp where
  | add : ℕ → Pt → Cost → TreeOp
  | rep : ℕ → ℕ → Cost → TreeOp

/-- Run one mutation; `none` is the Python error/corruption branch
(failed `assert`, reparenting the root, reparenting below a
descendant). -/
def applyOp (t : DirectedTree) : TreeOp → Option DirectedTree
  | .add p pt ac => (t.addNode p pt ac).map Prod.fst
  | .rep i p nc => t.reparent i p nc

/-- Run a script of mutations left to right. -/
def applyOps (t : DirectedTree) : List TreeOp → Option DirectedTree
  | [] => some t
  | op :: ops =>
    match applyOp t op with
    | none => none
    | some t2 => applyOps t2 ops

/-- Spec section 3 invariant, as state: the root's stored cost is `0`
and, along every ownership edge, the child's stored cost is the
parent's stored cost plus the child's `additionalCost`. -/
def WellFormedCost (t : DirectedTree) : Prop :=
  t.head.dat.cost = 0 ∧ CostOK t.head

theorem applyOp_wfc {t t2 : DirectedTree} (h : WellFormedCost t) {op : TreeOp}
    (happ : applyOp t op = some t2) : WellFormedCost t2 := by
  cases op with
  | add p pt ac =>
    simp only [applyOp, DirectedTree.addNode] at happ
    rcases hlk : t.lookup p with _ | pd
    · simp only [hlk] at happ
      cases happ
    · simp only [hlk, Option.map_some] at happ
      injection happ with h2
      subst h2
      constructor
      · show ((t.head.insN p _).1.dat).cost = 0
        rw [insN_dat]
        exact h.1
      · refine insN_costOk _ _ h.2 hlk rfl ?_
        exact costOk_iff.mpr ⟨fun c hc => absurd hc (List.not_mem_nil c),
          fun c hc => absurd hc (List.not_mem_nil c)⟩
  | rep i p nc =>
    simp only [applyOp, DirectedTree.reparent] at happ
    rcases hdet : (t.head.detachN i).2 with _ | sub
    · simp only [hdet] at happ
      cases happ
    · simp only [hdet] at happ
      rcases hf : ((t.head.detachN i).1).findD p with _ | pd
      · simp only [hf] at happ
        cases happ
      · simp only [hf] at happ
        injection happ with h2
        subst h2
        constructor
        · show ((((t.head.detachN i).1).insN p _).1.dat).cost = 0
          rw [insN_dat, detachN_dat]
          exact h.1
        · refine insN_costOk _ _ (detachN_costOk t.head h.2).1 hf ?_ (recost_costOk _ _)
          simp [recost_dat]

theorem applyOps_wfc : ∀ (ops : List TreeOp) {t t2 : DirectedTree}, WellFormedCost t →
    applyOps t ops = some t2 → WellFormedCost t2 := by
  intro ops
  induction ops with
  | nil =>
    intro t t2 h happ
    injection happ with h2
    exact h2 ▸ h
  | cons op rest ih =>
    intro t t2 h happ
    unfold applyOps at happ
    rcases hop : applyOp t op with _ | t1
    · rw [hop] at happ
      cases happ
    · rw [hop] at happ
      exact ih (applyOp_wfc h hop) happ

/-- C1: for every tree built through `DirectedTree` operations
(`add_node` and `reparent`, the latter recosting all descendants),
immediately after every completed operation the root's stored cost is
`0` and every non-root node's stored cost equals its parent's stored
cost plus its own `additionalCost` (`CostOK` states exactly this
parent-cost equation along every ownership edge). -/
theorem wfc_mkTree (p0 : Pt) : WellFormedCost (mkTree p0) :=
  ⟨rfl, costOk_iff.mpr ⟨fun c hc => absurd hc (List.not_mem_nil c),
    fun c hc => absurd hc (List.not_mem_nil c)⟩⟩

theorem c1_cost_invariant (p0 : Pt) (ops : List TreeOp) (t : DirectedTree)
    (h : applyOps (mkTree p0) ops = some t) :
    t.head.dat.cost = 0 ∧ CostOK t.head :=
  applyOps_wfc ops (wfc_mkTree p0) h

/-- Witness for C1: a concrete two-operation script (attach a node of
edge cost 2 below the root, then reparent it directly again with edge
cost 5) runs to completion and satisfies the invariant. -/
theorem c1_cost_invariant_witness :
    ∃ t, applyOps (mkTree ((0 : ℝ), (0 : ℝ)))
      [TreeOp.add 0 ((1 : ℝ), (1 : ℝ)) ((2 : ℝ) : Cost)] = some t ∧
      (t.head.dat.cost = 0 ∧ CostOK t.head) := by
  have heval : applyOps (mkTree ((0 : ℝ), (0 : ℝ)))
      [TreeOp.add 0 ((1 : ℝ), (1 : ℝ)) ((2 : ℝ) : Cost)]
      = some ⟨.node ⟨0, ((0 : ℝ), (0 : ℝ)), (1 : ℝ), 0, false⟩
          [.node ⟨1, ((1 : ℝ), (1 : ℝ)), ((2 : ℝ) : Cost), 0 + ((2 : ℝ) : Cost), false⟩ []],
        [0, 1]⟩ := by
    simp [applyOps, applyOp, DirectedTree.addNode, DirectedTree.lookup, mkTree,
      RNode.findD, RNode.insN]
  exact ⟨_, heval, c1_cost_invariant _ _ _ heval⟩

/-! ### Claims about the planners -/

/-- C2: on every tree reachable by RRT / RRT* `step()` calls (where
`reparent` is only invoked from the RRT* rewiring loop, with
nonnegative edge costs), no step ever hits an error/corruption branch —
in particular no `reparent` call reparents the root or moves a node
below one of its own descendants (the `none` branches of the
embedding) — and following parent pointers from any node reaches the
root within `|nodes|` hops (`path_down` exists and its length is at
most `n_vertices`). -/
theorem c2_no_cycles {sp : Space} (hsp : sp.CostNonneg) {ps : RRTParams} {p0 : Pt}
    {t : DirectedTree} (hreach : Reachable sp ps p0 t) :
    (∀ q, rrtStarStep sp ps t q ≠ none ∧ stepTo sp ps t q ≠ none) ∧
    ∀ i ∈ t.order, ∃ p2, t.pathDown i = some p2 ∧ p2.length ≤ t.nVertices := by
  have hinv := reachable_inv hsp hreach
  constructor
  · intro q
    constructor
    · rcases starStep_inv hsp ps hinv q with ⟨t2, r, heq, _, _⟩
      rw [heq]
      intro h
      cases h
    · rcases stepTo_inv hsp ps hinv q with ⟨t2, r, heq, _, _⟩
      rw [heq]
      intro h
      cases h
  · intro i hi
    have hids : i ∈ t.head.ids := hinv.perm.subset hi
    have hsome : (t.head.pathTo i).isSome := (pathTo_isSome t.head i).mpr hids
    rcases hpt : t.head.pathTo i with _ | p2
    · rw [hpt] at hsome; cases hsome
    refine ⟨p2, hpt, ?_⟩
    have hlen : p2.length ≤ t.head.ids.length := (pathTo_sublist t.head i p2 hpt).length_le
    rw [DirectedTree.nVertices, hinv.perm.length_eq]
    exact hlen

/-- Concrete space and parameters used by several planner witnesses:
an obstacle-free 5×5 space with no goals, `step_size = 50`,
`close = 1`. -/
noncomputable def wSp : Space := EmptySpace.toSpace ((5 : ℝ), (5 : ℝ)) []

/-- Witness parameters for the planner claims. -/
noncomputable def wPs : RRTParams := ⟨50, mkTol ((5 : ℝ), (5 : ℝ)), 1⟩

/-- Witness for C2: the initial single-node tree at `(1, 1)`. -/
theorem c2_no_cycles_witness :
    (∀ q, rrtStarStep wSp wPs (mkTree ((1 : ℝ), (1 : ℝ))) q ≠ none ∧
      stepTo wSp wPs (mkTree ((1 : ℝ), (1 : ℝ))) q ≠ none) ∧
    ∀ i ∈ (mkTree ((1 : ℝ), (1 : ℝ))).order,
      ∃ p2, (mkTree ((1 : ℝ), (1 : ℝ))).pathDown i = some p2 ∧
        p2.length ≤ (mkTree ((1 : ℝ), (1 : ℝ))).nVertices :=
  c2_no_cycles (emptySpace_costNonneg ((5 : ℝ), (5 : ℝ)) []) Reachable.base

/-- C10: on every tree built solely through RRT / RRT* `step()` calls
the root node is never marked as a goal (`mark_goal` is only applied to
newly added nodes), so the free-node list is never empty and
`tree.nearest` always returns a node (its `np.argmin`-on-empty error
branch is unreachable). -/
theorem c10_root_never_goal {sp : Space} (hsp : sp.CostNonneg) {ps : RRTParams} {p0 : Pt}
    {t : DirectedTree} (hreach : Reachable sp ps p0 t) :
    t.head.dat.goal = false ∧ ∀ q, t.nearest q ≠ none := by
  have hinv := reachable_inv hsp hreach
  refine ⟨hinv.rootFree, ?_⟩
  intro q
  rcases nearest_isSome hinv q with ⟨j, hj⟩
  rw [hj]
  intro h
  cases h

/-- Witness for C10: the initial single-node tree at `(1, 1)`. -/
theorem c10_root_never_goal_witness :
    (mkTree ((1 : ℝ), (1 : ℝ))).head.dat.goal = false ∧
    ∀ q, (mkTree ((1 : ℝ), (1 : ℝ))).nearest q ≠ none :=
  @c10_root_never_goal wSp (by rw [wSp]; exact emptySpace_costNonneg ((5 : ℝ), (5 : ℝ)) [])
    wPs ((1 : ℝ), (1 : ℝ)) (mkTree ((1 : ℝ), (1 : ℝ))) Reachable.base

/-- C7: when the neighborhood `near(q_rand, close)` is empty,
`RRTstar.step` is exactly the basic RRT step on the same sample: the
same tree mutation and the same returned node (or the same no-node
outcome). -/
theorem c7_fallback_equals_basic (sp : Space) (ps : RRTParams) (t : DirectedTree)
    (qRand : Pt) (h : t.near qRand ps.close = []) :
    rrtStarStep sp ps t qRand = stepTo sp ps t qRand := by
  unfold rrtStarStep
  rw [if_pos h]

/-- C5: for the RRT* planner, one successful `step()` from any
reachable tree never increases the cost component of
`get_shortest_path` — the minimum stored cost among goal nodes (`⊤`
when there are none): each guarded rewire strictly decreases the
reparented node's cost and shifts all its descendants down by the same
amount, goal nodes are never removed, and adding a node only adds
candidates.  Iterating over any sequence of `step()` calls follows by
chaining this bound. -/
theorem c5_shortest_cost_monotone {sp : Space} (hsp : sp.CostNonneg) {ps : RRTParams}
    {p0 : Pt} {t : DirectedTree} (hreach : Reachable sp ps p0 t) {q : Pt}
    {t2 : DirectedTree} {r : Option ℕ} (hstep : rrtStarStep sp ps t q = some (t2, r)) :
    t2.shortestCost ≤ t.shortestCost := by
  have hinv := reachable_inv hsp hreach
  rcases starStep_inv hsp ps hinv q with ⟨t3, r3, heq, _, hmono⟩
  rw [heq] at hstep
  injection hstep with h2
  injection h2 with h3 h4
  subst h3
  exact shortestCost_mono hmono

/-! ### Concrete evaluation of one planner step (witness data) -/

theorem wFreeIds : (mkTree ((1 : ℝ), (1 : ℝ))).freeIds = [0] := by
  simp [DirectedTree.freeIds, DirectedTree.lookup, mkTree, RNode.findD]

theorem wDist : (mkTree ((1 : ℝ), (1 : ℝ))).distTo ((3 : ℝ), (1 : ℝ)) 0 = 2 := by
  simp only [DirectedTree.distTo, DirectedTree.lookup, mkTree, RNode.findD, if_pos]
  rw [show ((1 : ℝ), (1 : ℝ)) - ((3 : ℝ), (1 : ℝ)) = ((-2 : ℝ), (0 : ℝ)) from by
    rw [Prod.mk_sub_mk]; norm_num]
  exact norm2_eq (by norm_num) (by norm_num)

theorem wNear : (mkTree ((1 : ℝ), (1 : ℝ))).near ((3 : ℝ), (1 : ℝ)) wPs.close = [] := by
  rw [DirectedTree.near, wFreeIds]
  rw [List.filter_cons, List.filter_nil]
  rw [wDist]
  have : ¬ ((2 : ℝ) ≤ wPs.close) := by
    rw [wPs]
    norm_num
  simp [this]

theorem wPs_ssize : wPs.ssize = 50 := rfl

theorem wPs_close : wPs.close = 1 := rfl

theorem wNearest : (mkTree ((1 : ℝ), (1 : ℝ))).nearest ((3 : ℝ), (1 : ℝ)) = some 0 := by
  rw [DirectedTree.nearest, wFreeIds]
  rfl

theorem wSteer : steer wPs.ssize ((1 : ℝ), (1 : ℝ)) ((3 : ℝ), (1 : ℝ)) = ((3 : ℝ), (1 : ℝ)) := by
  rw [steer]
  rw [show ((3 : ℝ), (1 : ℝ)) - ((1 : ℝ), (1 : ℝ)) = ((2 : ℝ), (0 : ℝ)) from by
    rw [Prod.mk_sub_mk]; norm_num]
  rw [norm2_eq (v := ((2 : ℝ), (0 : ℝ))) (c := (2 : ℝ)) (by norm_num) (by norm_num)]
  rw [if_pos (by rw [wPs_ssize]; norm_num : (2 : ℝ) < wPs.ssize)]

theorem wPathCost : wSp.pathCost ((1 : ℝ), (1 : ℝ)) ((3 : ℝ), (1 : ℝ)) = ((2 : ℝ) : Cost) := by
  show emptyGetPathCost ((5 : ℝ), (5 : ℝ)) ((1 : ℝ), (1 : ℝ)) ((3 : ℝ), (1 : ℝ)) = _
  rw [emptyGetPathCost, if_pos]
  · rw [show ((1 : ℝ), (1 : ℝ)) - ((3 : ℝ), (1 : ℝ)) = ((-2 : ℝ), (0 : ℝ)) from by
      rw [Prod.mk_sub_mk]; norm_num]
    rw [norm2_eq (v := ((-2 : ℝ), (0 : ℝ))) (c := (2 : ℝ)) (by norm_num) (by norm_num)]
  · constructor <;> (rw [inBounds]; norm_num)

theorem wStepEval :
    stepTo wSp wPs (mkTree ((1 : ℝ), (1 : ℝ))) ((3 : ℝ), (1 : ℝ)) =
      some (⟨.node ⟨0, ((1 : ℝ), (1 : ℝ)), (1 : ℝ), 0, false⟩
          [.node ⟨1, ((3 : ℝ), (1 : ℝ)), ((2 : ℝ) : Cost), (0 : Cost) + ((2 : ℝ) : Cost),
            false⟩ []], [0, 1]⟩, some 1) := by
  unfold stepTo
  rw [wNearest]
  have hlk : (mkTree ((1 : ℝ), (1 : ℝ))).lookup 0
      = some ⟨0, ((1 : ℝ), (1 : ℝ)), (1 : ℝ), 0, false⟩ := by
    simp [DirectedTree.lookup, mkTree, RNode.findD]
  simp only [hlk]
  rw [wSteer, wPathCost]
  rw [if_neg (by exact WithTop.coe_ne_top)]
  unfold finishStep
  rw [show DirectedTree.addNode (mkTree ((1 : ℝ), (1 : ℝ))) 0 ((3 : ℝ), (1 : ℝ))
        ((2 : ℝ) : Cost)
      = some (⟨.node ⟨0, ((1 : ℝ), (1 : ℝ)), (1 : ℝ), 0, false⟩
          [.node ⟨1, ((3 : ℝ), (1 : ℝ)), ((2 : ℝ) : Cost), (0 : Cost) + ((2 : ℝ) : Cost),
            false⟩ []], [0, 1]⟩, 1) from by
    simp [DirectedTree.addNode, DirectedTree.lookup, mkTree, RNode.findD, RNode.insN]]
  have hg : wSp.inGoals ((3 : ℝ), (1 : ℝ)) = false := by
    show decide (checkGoals [] ((3 : ℝ), (1 : ℝ))) = false
    simp [checkGoals]
  simp [hg]

/-- Witness for C5: one concrete RRT* step from the initial tree at
`(1, 1)` with sample `(3, 1)` (empty neighborhood, so the basic step
runs) completes, and the shortest-path cost does not increase. -/
theorem c5_shortest_cost_monotone_witness :
    rrtStarStep wSp wPs (mkTree ((1 : ℝ), (1 : ℝ))) ((3 : ℝ), (1 : ℝ)) =
      some (⟨.node ⟨0, ((1 : ℝ), (1 : ℝ)), (1 : ℝ), 0, false⟩
          [.node ⟨1, ((3 : ℝ), (1 : ℝ)), ((2 : ℝ) : Cost), (0 : Cost) + ((2 : ℝ) : Cost),
            false⟩ []], [0, 1]⟩, some 1) ∧
    (⟨.node ⟨0, ((1 : ℝ), (1 : ℝ)), (1 : ℝ), 0, false⟩
        [.node ⟨1, ((3 : ℝ), (1 : ℝ)), ((2 : ℝ) : Cost), (0 : Cost) + ((2 : ℝ) : Cost),
          false⟩ []], [0, 1]⟩ : DirectedTree).shortestCost
      ≤ (mkTree ((1 : ℝ), (1 : ℝ))).shortestCost := by
  have heval : rrtStarStep wSp wPs (mkTree ((1 : ℝ), (1 : ℝ))) ((3 : ℝ), (1 : ℝ)) =
      some (⟨.node ⟨0, ((1 : ℝ), (1 : ℝ)), (1 : ℝ), 0, false⟩
          [.node ⟨1, ((3 : ℝ), (1 : ℝ)), ((2 : ℝ) : Cost), (0 : Cost) + ((2 : ℝ) : Cost),
            false⟩ []], [0, 1]⟩, some 1) := by
    unfold rrtStarStep
    rw [if_pos wNear]
    exact wStepEval
  exact ⟨heval,
    c5_shortest_cost_monotone (emptySpace_costNonneg ((5 : ℝ), (5 : ℝ)) [])
      Reachable.base heval⟩

/-- Witness for C7: at the initial tree at `(1, 1)` with sample
`(3, 1)` and `close = 1` the neighborhood is empty, and the RRT* step
coincides with the basic RRT step. -/
theorem c7_fallback_equals_basic_witness :
    (mkTree ((1 : ℝ), (1 : ℝ))).near ((3 : ℝ), (1 : ℝ)) wPs.close = [] ∧
    rrtStarStep wSp wPs (mkTree ((1 : ℝ), (1 : ℝ))) ((3 : ℝ), (1 : ℝ)) =
      stepTo wSp wPs (mkTree ((1 : ℝ), (1 : ℝ))) ((3 : ℝ), (1 : ℝ)) :=
  ⟨wNear, c7_fallback_equals_basic wSp wPs (mkTree ((1 : ℝ), (1 : ℝ))) ((3 : ℝ), (1 : ℝ)) wNear⟩

/-! ### Claim C6 -/

/-- C6: `collision_free` returns false whenever any coordinate of either
endpoint is exactly `0` or exactly the corresponding dimension (the
bounds check is strict on both sides, in both the empty and the walled
space, regardless of walls); and for a point `p` strictly inside bounds
and outside every wall rectangle, `collision_free(p, p)` is true. -/
theorem c6_strict_bounds_and_reflexive_free (dims : Pt) (walls : List Wall)
    (pf pt p : Pt)
    (hb : pf.1 = 0 ∨ pf.2 = 0 ∨ pf.1 = dims.1 ∨ pf.2 = dims.2 ∨
          pt.1 = 0 ∨ pt.2 = 0 ∨ pt.1 = dims.1 ∨ pt.2 = dims.2)
    (hin : inBounds dims p) (hout : ¬ pointInWalls walls p) :
    (¬ emptyCollisionFree dims pf pt ∧ ¬ wallCollisionFree dims walls pf pt) ∧
    (emptyCollisionFree dims p p ∧ wallCollisionFree dims walls p p) := by
  have hbf : ¬ (inBounds dims pf ∧ inBounds dims pt) := by
    rintro ⟨⟨h1, h2, h3, h4⟩, h5, h6, h7, h8⟩
    rcases hb with h | h | h | h | h | h | h | h <;> linarith
  refine ⟨⟨?_, ?_⟩, ⟨hin, hin⟩, hin, hin, ?_⟩
  · rintro ⟨ha, hc⟩
    exact hbf ⟨ha, hc⟩
  · rintro ⟨ha, hc, _⟩
    exact hbf ⟨ha, hc⟩
  · intro w hw _
    refine ⟨?_, ?_, ?_⟩
    · intro hpin
      exact hout ⟨w, hw, hpin⟩
    · intro hpin
      exact hout ⟨w, hw, hpin⟩
    · intro e _
      exact linesIntersect_self_false p e.1 e.2

/-- Witness for C6: in the 5×5 space with one wall `((2,2),(3,3))`, the
endpoint `(0,1)` (first coordinate exactly `0`) makes `collision_free`
false, and `collision_free((1,1),(1,1))` is true. -/
theorem c6_strict_bounds_and_reflexive_free_witness :
    (((0 : ℝ), (1 : ℝ)) : Pt).1 = 0 ∧
    inBounds ((5 : ℝ), (5 : ℝ)) ((1 : ℝ), (1 : ℝ)) ∧
    ¬ pointInWalls [((((2 : ℝ), (2 : ℝ)), ((3 : ℝ), (3 : ℝ))) : Wall)] ((1 : ℝ), (1 : ℝ)) ∧
    ((¬ emptyCollisionFree ((5 : ℝ), (5 : ℝ)) ((0 : ℝ), (1 : ℝ)) ((1 : ℝ), (1 : ℝ)) ∧
      ¬ wallCollisionFree ((5 : ℝ), (5 : ℝ)) [(((2 : ℝ), (2 : ℝ)), ((3 : ℝ), (3 : ℝ)))]
        ((0 : ℝ), (1 : ℝ)) ((1 : ℝ), (1 : ℝ))) ∧
     (emptyCollisionFree ((5 : ℝ), (5 : ℝ)) ((1 : ℝ), (1 : ℝ)) ((1 : ℝ), (1 : ℝ)) ∧
      wallCollisionFree ((5 : ℝ), (5 : ℝ)) [(((2 : ℝ), (2 : ℝ)), ((3 : ℝ), (3 : ℝ)))]
        ((1 : ℝ), (1 : ℝ)) ((1 : ℝ), (1 : ℝ)))) := by
  have h1 : (((0 : ℝ), (1 : ℝ)) : Pt).1 = 0 := rfl
  have h2 : inBounds ((5 : ℝ), (5 : ℝ)) ((1 : ℝ), (1 : ℝ)) := by
    rw [inBounds]; norm_num
  have h3 : ¬ pointInWalls [((((2 : ℝ), (2 : ℝ)), ((3 : ℝ), (3 : ℝ))) : Wall)]
      ((1 : ℝ), (1 : ℝ)) := by
    rw [pointInWalls]
    simp only [List.mem_singleton]
    rintro ⟨w, rfl, hpin⟩
    rw [pointInBox] at hpin
    norm_num at hpin
  exact ⟨h1, h2, h3,
    c6_strict_bounds_and_reflexive_free ((5 : ℝ), (5 : ℝ)) _ _ _ _ (Or.inl h1) h2 h3⟩

/-! ### Claim C4 -/

/-- Equational restatement of `findIntersectionPoint` with the
let-bindings expanded. -/
theorem fip_eq (a1 a2 b1 b2 : Pt) :
    findIntersectionPoint a1 a2 b1 b2 =
      if cross2 (a2 - a1) (b2 - b1) = 0 then none
      else if 0 ≤ cross2 (b1 - a1) (b2 - b1) / cross2 (a2 - a1) (b2 - b1) ∧
              cross2 (b1 - a1) (b2 - b1) / cross2 (a2 - a1) (b2 - b1) ≤ 1 ∧
              0 ≤ cross2 (b1 - a1) (a2 - a1) / cross2 (a2 - a1) (b2 - b1) ∧
              cross2 (b1 - a1) (a2 - a1) / cross2 (a2 - a1) (b2 - b1) ≤ 1 then
        some (a1 + (cross2 (b1 - a1) (b2 - b1) / cross2 (a2 - a1) (b2 - b1)) • (a2 - a1))
      else none := rfl

theorem firstHit_cons_none {pf pt : Pt} {e : Pt × Pt} {es : List (Pt × Pt)}
    (h : findIntersectionPoint pf pt e.1 e.2 = none) :
    firstHit pf pt (e :: es) = firstHit pf pt es := by
  simp only [firstHit, h]

theorem firstHit_cons_some {pf pt : Pt} {e : Pt × Pt} {es : List (Pt × Pt)} {q : Pt}
    (h : findIntersectionPoint pf pt e.1 e.2 = some q) :
    firstHit pf pt (e :: es) = some q := by
  simp only [firstHit, h]

theorem cx4_outer :
    firstHit ((1 : ℝ), (1 : ℝ)) ((10 : ℝ), (1 : ℝ)) (outerEdges ((5 : ℝ), (5 : ℝ)))
      = some ((5 : ℝ), (1 : ℝ)) := by
  rw [outerEdges]
  rw [firstHit_cons_none (by
    rw [fip_eq]; norm_num [cross2, Prod.mk_sub_mk])]
  rw [firstHit_cons_none (by
    rw [fip_eq]; norm_num [cross2, Prod.mk_sub_mk])]
  rw [firstHit_cons_some (q := ((5 : ℝ), (1 : ℝ))) (by
    rw [fip_eq]
    norm_num [cross2, Prod.mk_sub_mk, Prod.smul_mk, smul_eq_mul, Prod.mk_add_mk,
      Prod.mk.injEq, Prod.ext_iff, Prod.fst_add, Prod.snd_add, Prod.fst_sub,
      Prod.snd_sub, Prod.smul_fst, Prod.smul_snd, Prod.fst_one, Prod.snd_one])]

theorem cx4_hits :
    wallHits ((1 : ℝ), (1 : ℝ)) ((10 : ℝ), (1 : ℝ))
        [((((2 : ℝ), (1 / 2 : ℝ)), ((3 : ℝ), (3 / 2 : ℝ))) : Wall)]
      = [((2 : ℝ), (1 : ℝ)), ((3 : ℝ), (1 : ℝ))] := by
  have h1 : findIntersectionPoint ((1 : ℝ), (1 : ℝ)) ((10 : ℝ), (1 : ℝ))
      ((2 : ℝ), (1 / 2 : ℝ)) ((2 : ℝ), (3 / 2 : ℝ)) = some ((2 : ℝ), (1 : ℝ)) := by
    rw [fip_eq]
    norm_num [cross2, Prod.mk_sub_mk, Prod.smul_mk, smul_eq_mul, Prod.mk_add_mk,
      Prod.mk.injEq, Prod.ext_iff, Prod.fst_add, Prod.snd_add, Prod.fst_sub,
      Prod.snd_sub, Prod.smul_fst, Prod.smul_snd, Prod.fst_one, Prod.snd_one]
  have h2 : findIntersectionPoint ((1 : ℝ), (1 : ℝ)) ((10 : ℝ), (1 : ℝ))
      ((2 : ℝ), (1 / 2 : ℝ)) ((3 : ℝ), (1 / 2 : ℝ)) = none := by
    rw [fip_eq]; norm_num [cross2, Prod.mk_sub_mk]
  have h3 : findIntersectionPoint ((1 : ℝ), (1 : ℝ)) ((10 : ℝ), (1 : ℝ))
      ((2 : ℝ), (3 / 2 : ℝ)) ((3 : ℝ), (3 / 2 : ℝ)) = none := by
    rw [fip_eq]; norm_num [cross2, Prod.mk_sub_mk]
  have h4 : findIntersectionPoint ((1 : ℝ), (1 : ℝ)) ((10 : ℝ), (1 : ℝ))
      ((3 : ℝ), (1 / 2 : ℝ)) ((3 : ℝ), (3 / 2 : ℝ)) = some ((3 : ℝ), (1 : ℝ)) := by
    rw [fip_eq]
    norm_num [cross2, Prod.mk_sub_mk, Prod.smul_mk, smul_eq_mul, Prod.mk_add_mk,
      Prod.mk.injEq, Prod.ext_iff, Prod.fst_add, Prod.snd_add, Prod.fst_sub,
      Prod.snd_sub, Prod.smul_fst, Prod.smul_snd, Prod.fst_one, Prod.snd_one]
  have hnear : wallNear ((1 : ℝ), (1 : ℝ)) ((10 : ℝ), (1 : ℝ))
      ((((2 : ℝ), (1 / 2 : ℝ)), ((3 : ℝ), (3 / 2 : ℝ))) : Wall) := by
    rw [wallNear]; norm_num
  rw [wallHits, wallHits, if_pos hnear, wallEdges]
  simp only [List.filterMap_cons, List.filterMap_nil]
  rw [h1, h2, h3, h4]
  rfl

/-- C4 counterexample: in the 5×5 walled space with one wall
`((2, 1/2), (3, 3/2))`, from `(1,1)` toward `(10,1)` the function returns
the right-boundary intersection `(5,1)`, even though the wall-edge
intersection `(2,1)` is strictly nearer to `point_from` — so the result
is not the globally nearest intersection across both sets, refuting the
claim as stated. -/
theorem c4_counterexample :
    wallGetNearestFreePoint ((5 : ℝ), (5 : ℝ))
        [((((2 : ℝ), (1 / 2 : ℝ)), ((3 : ℝ), (3 / 2 : ℝ))) : Wall)]
        ((1 : ℝ), (1 : ℝ)) ((10 : ℝ), (1 : ℝ)) = ((5 : ℝ), (1 : ℝ)) ∧
    ((2 : ℝ), (1 : ℝ)) ∈ wallHits ((1 : ℝ), (1 : ℝ)) ((10 : ℝ), (1 : ℝ))
        [((((2 : ℝ), (1 / 2 : ℝ)), ((3 : ℝ), (3 / 2 : ℝ))) : Wall)] ∧
    norm2 (((1 : ℝ), (1 : ℝ)) - ((2 : ℝ), (1 : ℝ)))
      < norm2 (((1 : ℝ), (1 : ℝ)) - ((5 : ℝ), (1 : ℝ))) := by
  refine ⟨?_, ?_, ?_⟩
  · rw [wallGetNearestFreePoint, cx4_outer]
  · rw [cx4_hits]
    exact List.mem_cons_self _ _
  · rw [show (((1 : ℝ), (1 : ℝ)) : Pt) - ((2 : ℝ), (1 : ℝ)) = ((-1 : ℝ), (0 : ℝ)) from by
      rw [Prod.mk_sub_mk]; norm_num]
    rw [show (((1 : ℝ), (1 : ℝ)) : Pt) - ((5 : ℝ), (1 : ℝ)) = ((-4 : ℝ), (0 : ℝ)) from by
      rw [Prod.mk_sub_mk]; norm_num]
    rw [norm2_eq (v := ((-1 : ℝ), (0 : ℝ))) (c := (1 : ℝ)) (by norm_num) (by norm_num)]
    rw [norm2_eq (v := ((-4 : ℝ), (0 : ℝ))) (c := (4 : ℝ)) (by norm_num) (by norm_num)]
    norm_num

theorem nearestPointTo_spec (pf q0 : Pt) (qs : List Pt) :
    nearestPointTo pf q0 qs ∈ q0 :: qs ∧
      ∀ q ∈ q0 :: qs, norm2 (pf - nearestPointTo pf q0 qs) ≤ norm2 (pf - q) := by
  have hmem : ∀ (l : List Pt) (a : Pt),
      l.foldl (fun best q => if norm2 (pf - q) < norm2 (pf - best) then q else best) a
        ∈ a :: l :=
    fun l a => foldl_choice_mem _ (fun a b => by
      by_cases h : norm2 (pf - b) < norm2 (pf - a)
      · right; rw [if_pos h]
      · left; rw [if_neg h]) l a
  have hmin : ∀ (l : List Pt) (a : Pt),
      norm2 (pf -
          l.foldl (fun best q => if norm2 (pf - q) < norm2 (pf - best) then q else best) a)
          ≤ norm2 (pf - a) ∧
        ∀ q ∈ l,
          norm2 (pf -
              l.foldl (fun best q => if norm2 (pf - q) < norm2 (pf - best) then q else best) a)
            ≤ norm2 (pf - q) := by
    intro l
    induction l with
    | nil => intro a; exact ⟨le_refl _, by simp⟩
    | cons x xs ih =>
      intro a
      rw [List.foldl_cons]
      by_cases h : norm2 (pf - x) < norm2 (pf - a)
      · rw [if_pos h]
        refine ⟨le_trans (ih x).1 (le_of_lt h), ?_⟩
        intro q hq
        rcases List.mem_cons.mp hq with h2 | h2
        · rw [h2]; exact (ih x).1
        · exact (ih x).2 q h2
      · rw [if_neg h]
        refine ⟨(ih a).1, ?_⟩
        intro q hq
        rcases List.mem_cons.mp hq with h2 | h2
        · rw [h2]; exact le_trans (ih a).1 (not_lt.mp h)
        · exact (ih a).2 q h2
  rw [nearestPointTo]
  refine ⟨hmem qs q0, ?_⟩
  intro q hq
  rcases List.mem_cons.mp hq with h2 | h2
  · rw [h2]; exact (hmin qs q0).1
  · exact (hmin qs q0).2 q h2

/-- C4 (amended): outer-boundary intersections take precedence — when an
outer edge intersects, the first such intersection point is returned even
if a wall-edge intersection is nearer to `point_from`.  When no outer
boundary edge intersects the segment, the walled space's
`get_nearest_free_point` returns `point_to` unchanged if no wall edge
intersects either, and otherwise returns a wall-edge intersection point
of minimal distance to `point_from`. -/
theorem c4_nearest_free_point_amended (dims : Pt) (walls : List Wall) (pf pt : Pt)
    (ho : firstHit pf pt (outerEdges dims) = none) :
    (wallHits pf pt walls = [] ∧ wallGetNearestFreePoint dims walls pf pt = pt) ∨
    (wallGetNearestFreePoint dims walls pf pt ∈ wallHits pf pt walls ∧
      ∀ q ∈ wallHits pf pt walls,
        norm2 (pf - wallGetNearestFreePoint dims walls pf pt) ≤ norm2 (pf - q)) := by
  cases hw : wallHits pf pt walls with
  | nil =>
    left
    exact ⟨rfl, by simp only [wallGetNearestFreePoint, ho, hw]⟩
  | cons q qs =>
    right
    have hres : wallGetNearestFreePoint dims walls pf pt = nearestPointTo pf q qs := by
      simp only [wallGetNearestFreePoint, ho, hw]
    rw [hres]
    exact nearestPointTo_spec pf q qs

theorem wx4_outer :
    firstHit ((1 : ℝ), (1 : ℝ)) ((4 : ℝ), (1 : ℝ)) (outerEdges ((5 : ℝ), (5 : ℝ)))
      = none := by
  rw [outerEdges]
  rw [firstHit_cons_none (by
    rw [fip_eq]; norm_num [cross2, Prod.mk_sub_mk])]
  rw [firstHit_cons_none (by
    rw [fip_eq]; norm_num [cross2, Prod.mk_sub_mk])]
  rw [firstHit_cons_none (by
    rw [fip_eq]; norm_num [cross2, Prod.mk_sub_mk])]
  rw [firstHit_cons_none (by
    rw [fip_eq]; norm_num [cross2, Prod.mk_sub_mk])]
  rfl

/-- Witness for C4 (amended): from `(1,1)` toward `(4,1)` no outer edge
intersects, and the returned point is a wall-edge intersection of
minimal distance to `point_from`. -/
theorem c4_nearest_free_point_amended_witness :
    firstHit ((1 : ℝ), (1 : ℝ)) ((4 : ℝ), (1 : ℝ)) (outerEdges ((5 : ℝ), (5 : ℝ))) = none ∧
    ((wallHits ((1 : ℝ), (1 : ℝ)) ((4 : ℝ), (1 : ℝ))
          [((((2 : ℝ), (1 / 2 : ℝ)), ((3 : ℝ), (3 / 2 : ℝ))) : Wall)] = [] ∧
        wallGetNearestFreePoint ((5 : ℝ), (5 : ℝ))
          [((((2 : ℝ), (1 / 2 : ℝ)), ((3 : ℝ), (3 / 2 : ℝ))) : Wall)]
          ((1 : ℝ), (1 : ℝ)) ((4 : ℝ), (1 : ℝ)) = ((4 : ℝ), (1 : ℝ))) ∨
      (wallGetNearestFreePoint ((5 : ℝ), (5 : ℝ))
          [((((2 : ℝ), (1 / 2 : ℝ)), ((3 : ℝ), (3 / 2 : ℝ))) : Wall)]
          ((1 : ℝ), (1 : ℝ)) ((4 : ℝ), (1 : ℝ))
          ∈ wallHits ((1 : ℝ), (1 : ℝ)) ((4 : ℝ), (1 : ℝ))
            [((((2 : ℝ), (1 / 2 : ℝ)), ((3 : ℝ), (3 / 2 : ℝ))) : Wall)] ∧
        ∀ q ∈ wallHits ((1 : ℝ), (1 : ℝ)) ((4 : ℝ), (1 : ℝ))
            [((((2 : ℝ), (1 / 2 : ℝ)), ((3 : ℝ), (3 / 2 : ℝ))) : Wall)],
          norm2 (((1 : ℝ), (1 : ℝ)) -
              wallGetNearestFreePoint ((5 : ℝ), (5 : ℝ))
                [((((2 : ℝ), (1 / 2 : ℝ)), ((3 : ℝ), (3 / 2 : ℝ))) : Wall)]
                ((1 : ℝ), (1 : ℝ)) ((4 : ℝ), (1 : ℝ)))
            ≤ norm2 (((1 : ℝ), (1 : ℝ)) - q))) :=
  ⟨wx4_outer, c4_nearest_free_point_amended ((5 : ℝ), (5 : ℝ)) _ _ _ wx4_outer⟩

/-! ### Claim C3 -/

/-- The walled space of the C3 failing input: 5×5 board, no goals, one
wall from `(2, 1/2)` to `(3, 3/2)`. -/
noncomputable def cSp : Space :=
  WallSpace.toSpace ((5 : ℝ), (5 : ℝ)) [] [((((2 : ℝ), (1 / 2 : ℝ)), ((3 : ℝ), (3 / 2 : ℝ))) : Wall)]

/-- Parameters of the C3 failing input: step size 50, the derived
tolerance, close radius 1. -/
noncomputable def cPs : RRTParams := ⟨50, mkTol ((5 : ℝ), (5 : ℝ)), 1⟩

theorem cPs_ssize : cPs.ssize = 50 := rfl

theorem cPs_tol : cPs.tol = mkTol ((5 : ℝ), (5 : ℝ)) := rfl

theorem cNearest : (mkTree ((1 : ℝ), (1 : ℝ))).nearest ((4 : ℝ), (1 : ℝ)) = some 0 := by
  rw [DirectedTree.nearest, wFreeIds]
  rfl

theorem cSteer : steer cPs.ssize ((1 : ℝ), (1 : ℝ)) ((4 : ℝ), (1 : ℝ)) = ((4 : ℝ), (1 : ℝ)) := by
  rw [steer]
  rw [show ((4 : ℝ), (1 : ℝ)) - ((1 : ℝ), (1 : ℝ)) = ((3 : ℝ), (0 : ℝ)) from by
    rw [Prod.mk_sub_mk]; norm_num]
  rw [norm2_eq (v := ((3 : ℝ), (0 : ℝ))) (c := (3 : ℝ)) (by norm_num) (by norm_num)]
  rw [if_pos (by rw [cPs_ssize]; norm_num : (3 : ℝ) < cPs.ssize)]

theorem c3fip1 : findIntersectionPoint ((1 : ℝ), (1 : ℝ)) ((4 : ℝ), (1 : ℝ))
    ((2 : ℝ), (1 / 2 : ℝ)) ((2 : ℝ), (3 / 2 : ℝ)) = some ((2 : ℝ), (1 : ℝ)) := by
  rw [fip_eq]
  norm_num [cross2, Prod.mk_sub_mk, Prod.smul_mk, smul_eq_mul, Prod.mk_add_mk,
    Prod.mk.injEq, Prod.ext_iff, Prod.fst_add, Prod.snd_add, Prod.fst_sub,
    Prod.snd_sub, Prod.smul_fst, Prod.smul_snd, Prod.fst_one, Prod.snd_one]

theorem c3wallNear : wallNear ((1 : ℝ), (1 : ℝ)) ((4 : ℝ), (1 : ℝ))
    ((((2 : ℝ), (1 / 2 : ℝ)), ((3 : ℝ), (3 / 2 : ℝ))) : Wall) := by
  rw [wallNear]; norm_num

theorem cPathCostInf :
    cSp.pathCost ((1 : ℝ), (1 : ℝ)) ((4 : ℝ), (1 : ℝ)) = ⊤ := by
  show wallGetPathCost ((5 : ℝ), (5 : ℝ)) [((((2 : ℝ), (1 / 2 : ℝ)), ((3 : ℝ), (3 / 2 : ℝ))) : Wall)]
      ((1 : ℝ), (1 : ℝ)) ((4 : ℝ), (1 : ℝ)) = ⊤
  rw [wallGetPathCost, if_neg]
  rintro ⟨-, -, hwalls⟩
  obtain ⟨-, -, hedges⟩ := hwalls _ (List.mem_singleton.mpr rfl) c3wallNear
  refine hedges (((2 : ℝ), (1 / 2 : ℝ)), ((2 : ℝ), (3 / 2 : ℝ)))
    (by rw [wallEdges]; exact List.mem_cons_self _ _) ?_
  rw [linesIntersect, c3fip1]
  rfl

theorem c3hits :
    wallHits ((1 : ℝ), (1 : ℝ)) ((4 : ℝ), (1 : ℝ))
        [((((2 : ℝ), (1 / 2 : ℝ)), ((3 : ℝ), (3 / 2 : ℝ))) : Wall)]
      = [((2 : ℝ), (1 : ℝ)), ((3 : ℝ), (1 : ℝ))] := by
  have h2 : findIntersectionPoint ((1 : ℝ), (1 : ℝ)) ((4 : ℝ), (1 : ℝ))
      ((2 : ℝ), (1 / 2 : ℝ)) ((3 : ℝ), (1 / 2 : ℝ)) = none := by
    rw [fip_eq]; norm_num [cross2, Prod.mk_sub_mk]
  have h3 : findIntersectionPoint ((1 : ℝ), (1 : ℝ)) ((4 : ℝ), (1 : ℝ))
      ((2 : ℝ), (3 / 2 : ℝ)) ((3 : ℝ), (3 / 2 : ℝ)) = none := by
    rw [fip_eq]; norm_num [cross2, Prod.mk_sub_mk]
  have h4 : findIntersectionPoint ((1 : ℝ), (1 : ℝ)) ((4 : ℝ), (1 : ℝ))
      ((3 : ℝ), (1 / 2 : ℝ)) ((3 : ℝ), (3 / 2 : ℝ)) = some ((3 : ℝ), (1 : ℝ)) := by
    rw [fip_eq]
    norm_num [cross2, Prod.mk_sub_mk, Prod.smul_mk, smul_eq_mul, Prod.mk_add_mk,
      Prod.mk.injEq, Prod.ext_iff, Prod.fst_add, Prod.snd_add, Prod.fst_sub,
      Prod.snd_sub, Prod.smul_fst, Prod.smul_snd, Prod.fst_one, Prod.snd_one]
  rw [wallHits, wallHits, if_pos c3wallNear, wallEdges]
  simp only [List.filterMap_cons, List.filterMap_nil]
  rw [c3fip1, h2, h3, h4]
  rfl

theorem cNFP :
    cSp.nearestFreePoint ((1 : ℝ), (1 : ℝ)) ((4 : ℝ), (1 : ℝ)) = ((2 : ℝ), (1 : ℝ)) := by
  show wallGetNearestFreePoint ((5 : ℝ), (5 : ℝ))
      [((((2 : ℝ), (1 / 2 : ℝ)), ((3 : ℝ), (3 / 2 : ℝ))) : Wall)]
      ((1 : ℝ), (1 : ℝ)) ((4 : ℝ), (1 : ℝ)) = ((2 : ℝ), (1 : ℝ))
  simp only [wallGetNearestFreePoint, wx4_outer, c3hits]
  rw [nearestPointTo, List.foldl_cons, List.foldl_nil]
  rw [if_neg]
  rw [show (((1 : ℝ), (1 : ℝ)) : Pt) - ((3 : ℝ), (1 : ℝ)) = ((-2 : ℝ), (0 : ℝ)) from by
    rw [Prod.mk_sub_mk]; norm_num]
  rw [show (((1 : ℝ), (1 : ℝ)) : Pt) - ((2 : ℝ), (1 : ℝ)) = ((-1 : ℝ), (0 : ℝ)) from by
    rw [Prod.mk_sub_mk]; norm_num]
  rw [norm2_eq (v := ((-2 : ℝ), (0 : ℝ))) (c := (2 : ℝ)) (by norm_num) (by norm_num)]
  rw [norm2_eq (v := ((-1 : ℝ), (0 : ℝ))) (c := (1 : ℝ)) (by norm_num) (by norm_num)]
  norm_num

theorem cPathCost2 :
    cSp.pathCost ((1 : ℝ), (1 : ℝ)) ((2 : ℝ), (1 : ℝ)) = ⊤ := by
  show wallGetPathCost ((5 : ℝ), (5 : ℝ)) [((((2 : ℝ), (1 / 2 : ℝ)), ((3 : ℝ), (3 / 2 : ℝ))) : Wall)]
      ((1 : ℝ), (1 : ℝ)) ((2 : ℝ), (1 : ℝ)) = ⊤
  rw [wallGetPathCost, if_neg]
  rintro ⟨-, -, hwalls⟩
  obtain ⟨-, hto, -⟩ := hwalls _ (List.mem_singleton.mpr rfl)
    (by rw [wallNear]; norm_num)
  refine hto ?_
  rw [pointInBox]
  norm_num

/-- C3: the claimed fail-loudly behavior does not hold.  On the 5×5
walled space with wall `((2,1/2),(3,3/2))`, stepping the tree rooted at
`(1,1)` toward the sample `(4,1)`: the steered path is blocked, the
nearest-free-point fallback produces `(2,1)` — farther than tolerance
from the nearest node — but `(2,1)` lies exactly on the wall's edge, so
the recomputed path cost is still infinite (`point_in_box` is
inclusive), and the code silently adds node `1` with stored cost
`0 + ⊤ = ⊤` instead of failing. -/
theorem c3_infinite_cost_node_added :
    stepTo cSp cPs (mkTree ((1 : ℝ), (1 : ℝ))) ((4 : ℝ), (1 : ℝ)) =
      some (⟨.node ⟨0, ((1 : ℝ), (1 : ℝ)), (1 : ℝ), 0, false⟩
          [.node ⟨1, ((2 : ℝ), (1 : ℝ)), ⊤, (0 : Cost) + ⊤, false⟩ []], [0, 1]⟩, some 1) ∧
    (⟨.node ⟨0, ((1 : ℝ), (1 : ℝ)), (1 : ℝ), 0, false⟩
        [.node ⟨1, ((2 : ℝ), (1 : ℝ)), ⊤, (0 : Cost) + ⊤, false⟩ []],
      [0, 1]⟩ : DirectedTree).costOf 1 = ⊤ := by
  constructor
  · unfold stepTo
    rw [cNearest]
    have hlk : (mkTree ((1 : ℝ), (1 : ℝ))).lookup 0
        = some ⟨0, ((1 : ℝ), (1 : ℝ)), (1 : ℝ), 0, false⟩ := by
      simp [DirectedTree.lookup, mkTree, RNode.findD]
    simp only [hlk]
    rw [cSteer, cPathCostInf]
    rw [if_pos rfl]
    rw [cNFP]
    rw [if_neg (by
      rw [show (((1 : ℝ), (1 : ℝ)) : Pt) - ((2 : ℝ), (1 : ℝ)) = ((-1 : ℝ), (0 : ℝ)) from by
        rw [Prod.mk_sub_mk]; norm_num]
      rw [norm2_eq (v := ((-1 : ℝ), (0 : ℝ))) (c := (1 : ℝ)) (by norm_num) (by norm_num)]
      rw [cPs_tol, mkTol]
      norm_num)]
    rw [cPathCost2]
    unfold finishStep
    rw [show DirectedTree.addNode (mkTree ((1 : ℝ), (1 : ℝ))) 0 ((2 : ℝ), (1 : ℝ)) ⊤
        = some (⟨.node ⟨0, ((1 : ℝ), (1 : ℝ)), (1 : ℝ), 0, false⟩
            [.node ⟨1, ((2 : ℝ), (1 : ℝ)), ⊤, (0 : Cost) + ⊤, false⟩ []], [0, 1]⟩, 1) from by
      simp [DirectedTree.addNode, DirectedTree.lookup, mkTree, RNode.findD, RNode.insN]]
    have hg : cSp.inGoals ((2 : ℝ), (1 : ℝ)) = false := by
      show decide (checkGoals [] ((2 : ℝ), (1 : ℝ))) = false
      simp [checkGoals]
    simp [hg]
  · simp [DirectedTree.costOf, DirectedTree.lookup, RNode.findD, findDL]

/-! ### Claim C8 -/

/-- C8: `ball_intersect` misclassifies a genuine partial overlap.  The
circle centered at `(3.3, 2.5)` with radius `1` overlaps the rectangle
`(1,2)–(2.5,3)`: the rectangle point `(2.5, 2.5)` lies within distance
`0.8 < 1` of the center.  But the function builds `pygame.Rect` values,
which truncate the float corners to integers (ball rect `(2,1,2,2)`,
wall rect `(1,2,1,1)`), and the truncated rectangles fail `colliderect`
(`2 < 1 + 1` is false), so `ball_intersect` returns false. -/
theorem c8_ball_intersect_truncation :
    ¬ ballIntersect ((33 / 10 : ℚ), (5 / 2 : ℚ)) 1
        (((1 : ℚ), (2 : ℚ)), ((5 / 2 : ℚ), (3 : ℚ))) ∧
    pointInBoxQ ((1 : ℚ), (2 : ℚ)) ((5 / 2 : ℚ), (3 : ℚ)) ((5 / 2 : ℚ), (5 / 2 : ℚ)) ∧
    distSqQ ((5 / 2 : ℚ), (5 / 2 : ℚ)) ((33 / 10 : ℚ), (5 / 2 : ℚ)) < 1 ^ 2 := by
  refine ⟨?_, by rw [pointInBoxQ]; norm_num, by rw [distSqQ]; norm_num⟩
  rintro ⟨hcol, -⟩
  have h3 := hcol.2.2.1
  norm_num [mkPgRect, pyTrunc] at h3

/-! ### Claim C9 -/

theorem wallGetRandomFreePoint_none {walls : List Wall} :
    ∀ {samples : List Pt}, (∀ s ∈ samples, pointInWalls walls s) →
      wallGetRandomFreePoint walls samples = none := by
  intro samples
  induction samples with
  | nil => intro _; rfl
  | cons s rest ih =>
    intro h
    rw [wallGetRandomFreePoint, if_pos (h s (List.mem_cons_self _ _))]
    exact ih fun x hx => h x (List.mem_cons_of_mem _ hx)

/-- C9 counterexample: there is no maximum retry count.  With the single
wall `((0,0),(5,5))` covering the whole 5×5 board, the rejection loop of
`get_random_free_point` consumes sample streams of unbounded length
without terminating (and without raising any error): for every proposed
bound `N`, the stream of `N+1` copies of the rejected sample `(1,1)`
leaves the recursion still running. -/
theorem c9_counterexample :
    ¬ ∃ N : ℕ, ∀ samples : List Pt,
        wallGetRandomFreePoint [((((0 : ℝ), (0 : ℝ)), ((5 : ℝ), (5 : ℝ))) : Wall)]
            samples = none →
          samples.length ≤ N := by
  rintro ⟨N, hN⟩
  have hin : pointInWalls [((((0 : ℝ), (0 : ℝ)), ((5 : ℝ), (5 : ℝ))) : Wall)]
      ((1 : ℝ), (1 : ℝ)) := by
    refine ⟨_, List.mem_singleton.mpr rfl, ?_⟩
    rw [pointInBox]
    norm_num
  have h := hN (List.replicate (N + 1) ((1 : ℝ), (1 : ℝ)))
    (wallGetRandomFreePoint_none fun s hs => by
      rw [List.eq_of_mem_replicate hs]; exact hin)
  rw [List.length_replicate] at h
  omega

/-- C9 (amended): the rejection loop of `get_random_free_point` has no
retry cap — it keeps resampling (recursing) until a sample outside every
wall appears, so it hangs when the walls cover the whole board; but
every point it does return is the first drawn sample lying outside every
wall rectangle (hence, as a drawn sample, within `[0, dimensions)`). -/
theorem c9_returned_point_free_amended (walls : List Wall) (samples : List Pt) (p : Pt)
    (h : wallGetRandomFreePoint walls samples = some p) :
    ¬ pointInWalls walls p ∧ p ∈ samples := by
  induction samples with
  | nil => exact absurd h (by rw [wallGetRandomFreePoint]; exact Option.noConfusion)
  | cons s rest ih =>
    rw [wallGetRandomFreePoint] at h
    by_cases hs : pointInWalls walls s
    · rw [if_pos hs] at h
      obtain ⟨h1, h2⟩ := ih h
      exact ⟨h1, List.mem_cons_of_mem _ h2⟩
    · rw [if_neg hs] at h
      injection h with h2
      subst h2
      exact ⟨hs, List.mem_cons_self _ _⟩

/-- Witness for C9 (amended): with the wall `((2,2),(3,3))` and the
single sample `(1,1)`, the loop returns `(1,1)`, which is outside the
wall and among the drawn samples. -/
theorem c9_returned_point_free_amended_witness :
    wallGetRandomFreePoint [((((2 : ℝ), (2 : ℝ)), ((3 : ℝ), (3 : ℝ))) : Wall)]
        [((1 : ℝ), (1 : ℝ))] = some ((1 : ℝ), (1 : ℝ)) ∧
    (¬ pointInWalls [((((2 : ℝ), (2 : ℝ)), ((3 : ℝ), (3 : ℝ))) : Wall)] ((1 : ℝ), (1 : ℝ)) ∧
      ((1 : ℝ), (1 : ℝ)) ∈ [(((1 : ℝ), (1 : ℝ)) : Pt)]) := by
  have hfree : ¬ pointInWalls [((((2 : ℝ), (2 : ℝ)), ((3 : ℝ), (3 : ℝ))) : Wall)]
      ((1 : ℝ), (1 : ℝ)) := by
    rintro ⟨w, hw, hpin⟩
    rw [List.mem_singleton] at hw
    subst hw
    rw [pointInBox] at hpin
    norm_num at hpin
  have heval : wallGetRandomFreePoint [((((2 : ℝ), (2 : ℝ)), ((3 : ℝ), (3 : ℝ))) : Wall)]
      [((1 : ℝ), (1 : ℝ))] = some ((1 : ℝ), (1 : ℝ)) := by
    rw [wallGetRandomFreePoint, if_neg hfree]
  exact ⟨heval, c9_returned_point_free_amended _ _ _ heval⟩
